import Mathlib

/-!
# Verification of the contagion-simulator core

A shallow embedding, in Lean 4, of the core of the
Simulador-Contagio backend (files `src/core/epidemic.py`,
`src/core/sparse_network.py`, `src/core/graph.py`,
`src/core/network_cache.py`, `src/analysis/mst_analyzer.py`,
`src/analysis/wcc_analyzer.py`), together with theorems settling the
testable properties stated in the design spec.

Modelling conventions:
* numpy arrays of per-node data become total functions `ℕ → _`;
  operations only touch indices `< num_nodes`, as the arrays do;
* scipy sparse CSR matrices become either total weight functions
  `ℕ → ℕ → ℚ` (when only the matrix-vector product matters) or explicit
  association lists of `((row, col), weight)` entries (when CSR storage
  itself is under study);
* `np.exp` is abstracted by an arbitrary function `expf : ℚ → ℚ`;
  theorems that depend on a property of the exponential (only
  `exp 0 = 1` is ever needed) take that property as a hypothesis,
  which the real exponential satisfies;
* the per-tick uniform random draws `np.random.rand` become an input
  `rand : ℕ → ℚ` of the tick; properties of the distribution are never
  used, only `0 ≤ rand i` (draws lie in `[0,1)`);
* Python code that raises (`KeyError` in `map_indices_to_ids`) returns
  `Option`, with `none` for the raising run.
-/

/-! ## Vectorized SIR simulator (`src/core/epidemic.py`, `VectorizedSIRSimulator`) -/

/-- State of a `VectorizedSIRSimulator`: transmission rate `beta`,
node count, per-index infection state (`0` susceptible, `1` infected),
the incrementally maintained susceptible mask, and the optional bound
contact matrix (`None` until `set_contact_matrix` is called). -/
structure VectorizedSIRSimulator where
  beta : ℚ
  num_nodes : ℕ
  states : ℕ → ℕ
  susceptible_mask : ℕ → Bool
  contact_matrix : Option (ℕ → ℕ → ℚ)

namespace VectorizedSIRSimulator

/-- The fresh simulator built by `__init__`: all states `0`, mask all
`True`, no contact matrix bound. -/
def init (beta : ℚ) (num_nodes : ℕ) : VectorizedSIRSimulator :=
  { beta := beta
    num_nodes := num_nodes
    states := fun _ => 0
    susceptible_mask := fun _ => true
    contact_matrix := none }

/-- `initialize_infections`: reset every state to susceptible and the
whole mask to `True`, then mark the given patient-zero indices infected
and clear their mask entries. -/
def initialize_infections (s : VectorizedSIRSimulator)
    (patient_zero_indices : List ℕ) : VectorizedSIRSimulator :=
  { s with
    states := fun i => if i ∈ patient_zero_indices then 1 else 0
    susceptible_mask := fun i => decide (i ∉ patient_zero_indices) }

/-- `set_contact_matrix`: bind the day's adjacency. -/
def set_contact_matrix (s : VectorizedSIRSimulator)
    (matrix : ℕ → ℕ → ℚ) : VectorizedSIRSimulator :=
  { s with contact_matrix := some matrix }

/-- The sparse matrix-vector product `contact_matrix @ infected`:
`exposure i` is the weighted count of currently infected neighbours
of `i`. -/
def exposure (m : ℕ → ℕ → ℚ) (states : ℕ → ℕ) (n : ℕ) (i : ℕ) : ℚ :=
  ∑ j ∈ Finset.range n, m i j * (if states j = 1 then 1 else 0)

/-- `simulate_tick`: one day-tick of the SI process.  With no matrix
bound it is a no-op returning `(0, [])`.  Otherwise it computes
`P i = 1 - exp (-beta * exposure i)` (with `np.exp` abstracted as
`expf`), draws `rand i` per node, infects exactly the susceptible
nodes whose draw is `< P i`, updates states and mask at those indices,
and returns the count and list of newly infected indices. -/
def simulate_tick (expf : ℚ → ℚ) (rand : ℕ → ℚ)
    (s : VectorizedSIRSimulator) :
    VectorizedSIRSimulator × ℕ × List ℕ :=
  match s.contact_matrix with
  | none => (s, 0, [])
  | some m =>
    let P : ℕ → ℚ := fun i => 1 - expf (-(s.beta * exposure m s.states s.num_nodes i))
    let new_indices : List ℕ :=
      (List.range s.num_nodes).filter
        (fun i => decide (rand i < P i) && s.susceptible_mask i)
    ({ s with
        states := fun i => if i ∈ new_indices then 1 else s.states i
        susceptible_mask := fun i => if i ∈ new_indices then false else s.susceptible_mask i },
      new_indices.length, new_indices)

/-- One step of a multi-day run: optionally rebind the contact matrix
(`set_contact_matrix` is called once per simulated day by the drivers),
then run `simulate_tick` and keep the mutated simulator. -/
def run_step (expf : ℚ → ℚ) (s : VectorizedSIRSimulator)
    (p : Option (ℕ → ℕ → ℚ) × (ℕ → ℚ)) : VectorizedSIRSimulator :=
  (simulate_tick expf p.2 (match p.1 with
    | some m => s.set_contact_matrix m
    | none => s)).1

/-- A sequence of `simulate_tick` calls (each possibly preceded by a
`set_contact_matrix`, never by `initialize_infections`), applied in
order. -/
def run_steps (expf : ℚ → ℚ)
    (steps : List (Option (ℕ → ℕ → ℚ) × (ℕ → ℚ)))
    (s : VectorizedSIRSimulator) : VectorizedSIRSimulator :=
  steps.foldl (run_step expf) s

end VectorizedSIRSimulator

/-! ## Sparse contact network (`src/core/sparse_network.py`) -/

/-- A `SparseContactNetwork`: the sorted list of node ids (the
id↔index bijection: `node_to_idx` is the position in `nodes`,
`idx_to_node` the element at a position) and the CSR-stored weighted
entries after `sum_duplicates` (one stored entry per `(row, col)`
key). -/
structure SparseContactNetwork where
  nodes : List ℤ
  csr : List ((ℕ × ℕ) × ℚ)
deriving DecidableEq

namespace SparseContactNetwork

/-- The set of unique endpoints of an edge list. -/
def nodesOf (edges : List (ℤ × ℤ × ℚ)) : Finset ℤ :=
  edges.foldr (fun e s => insert e.1 (insert e.2.1 s)) ∅

/-- `sorted_nodes`: the unique endpoints in ascending order; index
assignment is position in this list. -/
def sorted_nodes (edges : List (ℤ × ℤ × ℚ)) : List ℤ :=
  (nodesOf edges).sort (· ≤ ·)

/-- The COO entry list: each undirected edge `(u, v, w)` contributes
the two directed entries `(i, j, w)` and `(j, i, w)`. -/
def cooEntries (nodes : List ℤ) (edges : List (ℤ × ℤ × ℚ)) :
    List (ℕ × ℕ × ℚ) :=
  edges.flatMap (fun e =>
    [(nodes.indexOf e.1, nodes.indexOf e.2.1, e.2.2),
     (nodes.indexOf e.2.1, nodes.indexOf e.1, e.2.2)])

/-- Insert one directed COO entry into the stored-entry list, summing
it into the existing entry with the same `(row, col)` key if there is
one (the CSR conversion and `sum_duplicates` merge duplicates by
addition). -/
def addEntry : List ((ℕ × ℕ) × ℚ) → ℕ × ℕ → ℚ → List ((ℕ × ℕ) × ℚ)
  | [], k, w => [(k, w)]
  | e :: rest, k, w =>
    if e.1 = k then (e.1, e.2 + w) :: rest else e :: addEntry rest k w

/-- The stored entries of the CSR matrix built from a COO list. -/
def csrFromCOO (l : List (ℕ × ℕ × ℚ)) : List ((ℕ × ℕ) × ℚ) :=
  l.foldl (fun m t => addEntry m (t.1, t.2.1) t.2.2) []

/-- `build_from_edges`: derive the sorted unique node set and build
the symmetric CSR matrix; an empty edge list yields the zero-node
network. -/
def build_from_edges (edges : List (ℤ × ℤ × ℚ)) : SparseContactNetwork :=
  if edges = [] then { nodes := [], csr := [] }
  else
    { nodes := sorted_nodes edges
      csr := csrFromCOO (cooEntries (sorted_nodes edges) edges) }

/-- The stored value at a `(row, col)` key, if any. -/
def lookupEntry (m : List ((ℕ × ℕ) × ℚ)) (i j : ℕ) : Option ℚ :=
  (m.find? (fun e => decide (e.1 = (i, j)))).map (·.2)

/-- The mathematical matrix entry: the stored value, or `0` when no
entry is stored. -/
def matrixEntry (net : SparseContactNetwork) (i j : ℕ) : ℚ :=
  (lookupEntry net.csr i j).getD 0

/-- The sum of the weights of all COO entries with key `(i, j)` — the
total duplicate contribution to one matrix cell. -/
def cooSum (l : List (ℕ × ℕ × ℚ)) (i j : ℕ) : ℚ :=
  ((l.filter (fun t => decide (t.1 = i ∧ t.2.1 = j))).map
    (fun t => t.2.2)).sum

/-- `get_node_count`. -/
def get_node_count (net : SparseContactNetwork) : ℕ := net.nodes.length

/-- `get_edge_count`: stored entries divided by two (the matrix is
symmetric). -/
def get_edge_count (net : SparseContactNetwork) : ℕ := net.csr.length / 2

/-- The `node_to_idx` dictionary as a partial map: defined exactly on
ids that are in the network. -/
def node_to_idx? (net : SparseContactNetwork) (nid : ℤ) : Option ℕ :=
  if nid ∈ net.nodes then some (net.nodes.indexOf nid) else none

/-- `map_ids_to_indices`: the list comprehension
`[node_to_idx[nid] for nid in node_ids if nid in node_to_idx]` —
absent ids are filtered out, present ones mapped to their index. -/
def map_ids_to_indices (net : SparseContactNetwork)
    (node_ids : List ℤ) : List ℕ :=
  (node_ids.filter (fun nid => decide (nid ∈ net.nodes))).map
    (fun nid => net.nodes.indexOf nid)

/-- `map_indices_to_ids`: the comprehension
`[idx_to_node[int(idx)] for idx in indices]`.  The `idx_to_node`
dictionary has exactly the keys `0 .. num_nodes - 1`; an index outside
that range raises `KeyError`, modelled as `none`. -/
def map_indices_to_ids (net : SparseContactNetwork) :
    List ℕ → Option (List ℤ)
  | [] => some []
  | i :: rest =>
    match net.nodes[i]? with
    | none => none
    | some nid => (map_indices_to_ids net rest).map (fun l => nid :: l)

end SparseContactNetwork

/-! ## Contact graph builder (`src/core/graph.py`, `ContactGraphBuilder`)

The per-class edge computation `_calculate_edges_vectorized` computes
its weights with a floating-point square root
(`1/(1+euclid) * min(duration, 1.5)`); the day-merging code under
study here (`build_daily_graph`, `build_sparse_daily_network`) only
consumes the per-session edge lists that computation returns, so a
day's input is modelled as the list of per-class-session edge lists
(one `(u, v, weight)` list per `seccion_id` group). -/

namespace ContactGraphBuilder

/-- The normalized unordered-pair key `(min(u,v), max(u,v))` used by
`build_sparse_daily_network`; an `nx.Graph` keys its edges by the same
unordered pair. -/
def normKey (u v : ℤ) : ℤ × ℤ := (min u v, max u v)

/-- Weight of the stored edge for unordered pair `k`, if present. -/
def lookupPair (g : List ((ℤ × ℤ) × ℚ)) (k : ℤ × ℤ) : Option ℚ :=
  (g.find? (fun e => decide (e.1 = k))).map (·.2)

/-- The `nx.Graph` merge step of `build_daily_graph`: if the pair
already has an edge keep the maximum of old and new weight, else add
the edge with the new weight. -/
def updateMax : List ((ℤ × ℤ) × ℚ) → ℤ × ℤ → ℚ → List ((ℤ × ℤ) × ℚ)
  | [], k, w => [(k, w)]
  | e :: rest, k, w =>
    if e.1 = k then (e.1, max e.2 w) :: rest else e :: updateMax rest k w

/-- `build_daily_graph`: fold every class session's edges into one
daily graph, merging same-pair edges with `max`. -/
def build_daily_graph (sessions : List (List (ℤ × ℤ × ℚ))) :
    List ((ℤ × ℤ) × ℚ) :=
  sessions.foldl
    (fun g ses =>
      ses.foldl (fun g e => updateMax g (normKey e.1 e.2.1) e.2.2) g) []

/-- The dictionary step of `build_sparse_daily_network`:
`edge_dict[key] = max(edge_dict.get(key, 0), w)` — like `updateMax`,
except that a missing key defaults to weight `0` before the `max`. -/
def dictMax : List ((ℤ × ℤ) × ℚ) → ℤ × ℤ → ℚ → List ((ℤ × ℤ) × ℚ)
  | [], k, w => [(k, max 0 w)]
  | e :: rest, k, w =>
    if e.1 = k then (e.1, max e.2 w) :: rest else e :: dictMax rest k w

/-- The `edge_dict` of `build_sparse_daily_network`: all sessions'
edges collected into one list, folded into a dictionary keyed by the
normalized pair. -/
def edge_dict (sessions : List (List (ℤ × ℤ × ℚ))) :
    List ((ℤ × ℤ) × ℚ) :=
  (sessions.flatMap id).foldl
    (fun d e => dictMax d (normKey e.1 e.2.1) e.2.2) []

/-- `unique_edges`: the merged dictionary rendered back as an edge
list, one edge per unordered pair. -/
def unique_edges (sessions : List (List (ℤ × ℤ × ℚ))) :
    List (ℤ × ℤ × ℚ) :=
  (edge_dict sessions).map (fun e => (e.1.1, e.1.2, e.2))

/-- `build_sparse_daily_network`: build the sparse network from the
merged unique edges. -/
def build_sparse_daily_network (sessions : List (List (ℤ × ℤ × ℚ))) :
    SparseContactNetwork :=
  SparseContactNetwork.build_from_edges (unique_edges sessions)

/-- All weights the day's sessions contribute to unordered pair `k`,
in encounter order. -/
def pairWeights (sessions : List (List (ℤ × ℤ × ℚ))) (k : ℤ × ℤ) :
    List ℚ :=
  ((sessions.flatMap id).filter
    (fun e => decide (normKey e.1 e.2.1 = k))).map (fun e => e.2.2)

/-- The maximum of a list of weights (`none` for the empty list). -/
def maxOfWeights : List ℚ → Option ℚ
  | [] => none
  | w :: ws => some (ws.foldl max w)

end ContactGraphBuilder

/-! ## Network cache (`src/core/network_cache.py`, `NetworkCacheManager`) -/

/-- A `NetworkCacheManager`: the day-label-keyed store of built
networks and the cumulative hit/miss counters.  (The `graph_builder`
collaborator is the `ContactGraphBuilder` above.) -/
structure NetworkCacheManager where
  cache : List (String × SparseContactNetwork)
  hits : ℕ
  misses : ℕ

namespace NetworkCacheManager

/-- Dictionary lookup `self._cache[dia_nombre]` (keys are unique:
entries are only added for labels not yet present). -/
def cacheLookup (c : NetworkCacheManager) (d : String) :
    Option SparseContactNetwork :=
  (c.cache.find? (fun e => decide (e.1 = d))).map (·.2)

/-- `get_or_build`: return the cached network for the day label and
count a hit, or build one from the day's rows, store it and count a
miss. -/
def get_or_build (c : NetworkCacheManager) (d : String)
    (rows : List (List (ℤ × ℤ × ℚ))) :
    SparseContactNetwork × NetworkCacheManager :=
  match c.cacheLookup d with
  | some net => (net, { c with hits := c.hits + 1 })
  | none =>
    let net := ContactGraphBuilder.build_sparse_daily_network rows
    (net, { cache := (d, net) :: c.cache
            hits := c.hits
            misses := c.misses + 1 })

/-- A sequence of `get_or_build` calls (arbitrary labels and rows),
keeping only the evolving cache state. -/
def run_calls (c : NetworkCacheManager)
    (calls : List (String × List (List (ℤ × ℤ × ℚ)))) :
    NetworkCacheManager :=
  calls.foldl (fun cc p => (get_or_build cc p.1 p.2).2) c

end NetworkCacheManager

/-! ## Propagation tree recorder (`src/core/epidemic.py`,
`VectorizedPropagationTree`)

A CSR adjacency row `contact_matrix[target_idx]` is modelled as the
list of its `(column index, weight)` pairs in storage order (the
zipped `row.indices` / `row.data` arrays). -/

/-- A `VectorizedPropagationTree`: the four parallel append-only lists
of recorded transmissions (source id, target id, contact weight, day
label). -/
structure VectorizedPropagationTree where
  sources : List ℤ
  targets : List ℤ
  weights : List ℚ
  days : List String

namespace VectorizedPropagationTree

/-- The fresh recorder built by `__init__`. -/
def empty : VectorizedPropagationTree := ⟨[], [], [], []⟩

/-- The inner loop of `record_transmissions` for one target: the first
entry of the target's adjacency row whose neighbor index is a member
of the supplied sources array. -/
def firstSourceNeighbor (row : List (ℕ × ℚ)) (srcs : List ℕ) :
    Option (ℕ × ℚ) :=
  row.find? (fun a => decide (a.1 ∈ srcs))

/-- Append one recorded transmission to the four parallel lists. -/
def appendEvent (t : VectorizedPropagationTree) (s tg : ℤ) (w : ℚ)
    (d : String) : VectorizedPropagationTree :=
  { sources := t.sources ++ [s]
    targets := t.targets ++ [tg]
    weights := t.weights ++ [w]
    days := t.days ++ [d] }

/-- `record_transmissions`: for each newly infected target index (in
order), scan its adjacency row for the first neighbor belonging to
`sources`; if one exists, record exactly one transmission event (ids
translated through `idx_to_node`) and stop scanning (`break`),
otherwise record nothing for that target. -/
def record_transmissions (t : VectorizedPropagationTree)
    (srcs : List ℕ) (tgts : List ℕ) (row : ℕ → List (ℕ × ℚ))
    (day : String) (idx_to_node : ℕ → ℤ) : VectorizedPropagationTree :=
  tgts.foldl (fun tr tgt =>
    match firstSourceNeighbor (row tgt) srcs with
    | some a => appendEvent tr (idx_to_node a.1) (idx_to_node tgt) a.2 day
    | none => tr) t

/-- The event quadruples one `record_transmissions` call appends: one
per target whose row has a source neighbor, none for the others. -/
def newEvents (srcs : List ℕ) (tgts : List ℕ) (row : ℕ → List (ℕ × ℚ))
    (day : String) (idx_to_node : ℕ → ℤ) : List (ℤ × ℤ × ℚ × String) :=
  tgts.filterMap (fun tgt =>
    (firstSourceNeighbor (row tgt) srcs).map
      (fun a => (idx_to_node a.1, idx_to_node tgt, a.2, day)))

/-- `get_transmission_count`. -/
def get_transmission_count (t : VectorizedPropagationTree) : ℕ :=
  t.sources.length

/-- The directed edges of the `to_networkx` digraph, as (source id,
target id) pairs. -/
def edgePairs (t : VectorizedPropagationTree) : List (ℤ × ℤ) :=
  t.sources.zip t.targets

/-- In-degree of node `v` in the `to_networkx` digraph: the number of
distinct source ids with a recorded edge into `v` (`nx.DiGraph`
collapses repeated `(u, v)` pairs into one edge). -/
def inDegree (t : VectorizedPropagationTree) (v : ℤ) : ℕ :=
  ((t.edgePairs.filter (fun p => decide (p.2 = v))).map Prod.fst).dedup.length

end VectorizedPropagationTree

/-! ## Graph analysis layer (`src/analysis/mst_analyzer.py`,
`src/analysis/wcc_analyzer.py`)

The analyzers consume `networkx` graphs; a graph is modelled as a
vertex list `V` (node ids, duplicate-free) and an edge list of
`(u, v, weight)` triples.  The `networkx` library routines the
analyzers call (`connected_components`, `is_connected`,
`minimum_spanning_tree` with Kruskal's algorithm) are modelled
explicitly: connected components through an eager union-find whose
classes are proved to coincide with the equivalence closure of the
edge relation, and the minimum spanning tree through Kruskal's
algorithm (sort the edges by the transformed weight, then accept an
edge exactly when its endpoints lie in different union-find
classes). -/

namespace GraphAnalysis

/-- Eager union-find union: redirect the whole class of `a` onto the
class of `b`. -/
def dsuUnion (f : ℤ → ℤ) (a b : ℤ) : ℤ → ℤ :=
  fun x => if f x = f a then f b else f x

/-- Union the endpoints of every edge in order, starting from `f`. -/
def dsuFold (es : List (ℤ × ℤ × ℚ)) (f : ℤ → ℤ) : ℤ → ℤ :=
  es.foldl (fun g e => dsuUnion g e.1 e.2.1) f

/-- The connected-component labelling of an edge list: two nodes get
the same label exactly when they are joined by a path (proved below as
`components_ker`). -/
def components (es : List (ℤ × ℤ × ℚ)) : ℤ → ℤ :=
  dsuFold es id

/-- Number of distinct labels `f` takes on `V`. -/
def classCount (V : List ℤ) (f : ℤ → ℤ) : ℕ :=
  ((V.map f).dedup).length

/-- Number of connected components of the graph `(V, es)`. -/
def numComponents (V : List ℤ) (es : List (ℤ × ℤ × ℚ)) : ℕ :=
  classCount V (components es)

/-- The component representatives, one per component. -/
def compReps (V : List ℤ) (es : List (ℤ × ℤ × ℚ)) : List ℤ :=
  (V.map (components es)).dedup

/-- The members of the component with representative `r`. -/
def compMembers (V : List ℤ) (es : List (ℤ × ℤ × ℚ)) (r : ℤ) : List ℤ :=
  V.filter (fun x => decide (components es x = r))

/-- The edges of the subgraph induced by the component with
representative `r` (`G_weighted.subgraph(component)`): the edges with
both endpoints in that component. -/
def compEdges (V : List ℤ) (es : List (ℤ × ℤ × ℚ)) (r : ℤ) :
    List (ℤ × ℤ × ℚ) :=
  es.filter (fun e =>
    decide (e.1 ∈ compMembers V es r) && decide (e.2.1 ∈ compMembers V es r))

/-- The symmetric edge relation of an edge list (direction and weight
ignored). -/
def edgeRel (es : List (ℤ × ℤ × ℚ)) (a b : ℤ) : Prop :=
  ∃ w, (a, b, w) ∈ es ∨ (b, a, w) ∈ es

/-- One step of Kruskal's algorithm on state (union-find, accepted
edges): accept the edge exactly when its endpoints lie in different
classes. -/
def kruskalStep (st : (ℤ → ℤ) × List (ℤ × ℤ × ℚ)) (e : ℤ × ℤ × ℚ) :
    (ℤ → ℤ) × List (ℤ × ℤ × ℚ) :=
  if st.1 e.1 = st.1 e.2.1 then st
  else (dsuUnion st.1 e.1 e.2.1, st.2 ++ [e])

/-- Kruskal's algorithm: the accepted (spanning-forest) edges of an
edge list processed in the given order. -/
def kruskal (es : List (ℤ × ℤ × ℚ)) : List (ℤ × ℤ × ℚ) :=
  (es.foldl kruskalStep (id, [])).2

end GraphAnalysis

namespace MSTAnalyzer

open GraphAnalysis

/-- `_prepare_graph`: the transformed construction weight
(`mst_weight`) for one edge, by weight mode: `inverse` is
`1/(peso + 1e-10)`, `negative` is `-peso`, anything else keeps
`peso`. -/
def mstWeight (mode : String) (peso : ℚ) : ℚ :=
  if mode = "inverse" then 1 / (peso + 1 / 10000000000)
  else if mode = "negative" then -peso
  else peso

/-- The edge ordering Kruskal consumes: edges sorted (stably) by
ascending transformed weight. -/
def sortEdges (mode : String) (es : List (ℤ × ℤ × ℚ)) :
    List (ℤ × ℤ × ℚ) :=
  es.mergeSort (fun e f => decide (mstWeight mode e.2.2 ≤ mstWeight mode f.2.2))

/-- The spanning structure `MSTAnalyzer.analyze` returns: the tree's
node list, its edge list, and the reported `num_componentes`. -/
structure MSTResult where
  mstNodes : List ℤ
  mstEdges : List (ℤ × ℤ × ℚ)
  num_componentes : ℕ

/-- `MSTAnalyzer.analyze`: an empty graph yields the zero result; a
connected graph yields one Kruskal tree over all nodes; a disconnected
graph yields, per connected component, a Kruskal tree of the induced
subgraph when the component has more than one node and an isolated
node otherwise, all unioned. -/
def analyze (mode : String) (V : List ℤ) (es : List (ℤ × ℤ × ℚ)) :
    MSTResult :=
  if V.length = 0 then ⟨[], [], 0⟩
  else if numComponents V es = 1 then
    ⟨V, kruskal (sortEdges mode es), 1⟩
  else
    { mstNodes :=
        (compReps V es).flatMap (fun r =>
          if 1 < (compMembers V es r).length then
            (kruskal (sortEdges mode (compEdges V es r))).flatMap
              (fun e => [e.1, e.2.1])
          else compMembers V es r)
      mstEdges :=
        (compReps V es).flatMap (fun r =>
          if 1 < (compMembers V es r).length then
            kruskal (sortEdges mode (compEdges V es r))
          else [])
      num_componentes := (compReps V es).length }

end MSTAnalyzer

namespace WCCAnalyzer

open GraphAnalysis

/-- The fields of the `WCCAnalyzer.analyze` result dictionary that
`get_metrics` consumes: component count, the component sizes in
descending order, and the giant-component size. -/
structure WCCResult where
  num_componentes : ℕ
  tamanos : List ℕ
  componente_gigante : ℕ

/-- `WCCAnalyzer.analyze` (the propagation digraph is converted to an
undirected graph first; the symmetric `edgeRel` model absorbs that):
an empty graph yields the zero result, otherwise the components are
computed and their sizes reported in descending order. -/
def analyze (V : List ℤ) (es : List (ℤ × ℤ × ℚ)) : WCCResult :=
  if V.length = 0 then ⟨0, [], 0⟩
  else
    { num_componentes := (compReps V es).length
      tamanos :=
        ((compReps V es).map (fun r => (compMembers V es r).length)).mergeSort
          (fun a b => decide (b ≤ a))
      componente_gigante :=
        ((compReps V es).map (fun r => (compMembers V es r).length)).foldr max 0 }

/-- `_calculate_fragmentation`: `0` when there are no components or no
nodes, else `1 - gigante / total`. -/
def fragmentation (r : WCCResult) : ℚ :=
  if r.num_componentes = 0 then 0
  else if r.tamanos.sum = 0 then 0
  else 1 - (r.componente_gigante : ℚ) / ((r.tamanos.sum : ℕ) : ℚ)

end WCCAnalyzer

namespace VectorizedSIRSimulator

theorem states_one_of_simulate_tick (expf : ℚ → ℚ) (rand : ℕ → ℚ)
    (s : VectorizedSIRSimulator) (i : ℕ) (h : s.states i = 1) :
    (simulate_tick expf rand s).1.states i = 1 := by
  unfold simulate_tick
  cases hm : s.contact_matrix with
  | none => simpa using h
  | some m =>
    simp only
    split <;> simp [h]

theorem states_one_of_run_step (expf : ℚ → ℚ)
    (p : Option (ℕ → ℕ → ℚ) × (ℕ → ℚ))
    (s : VectorizedSIRSimulator) (i : ℕ) (h : s.states i = 1) :
    (run_step expf s p).states i = 1 := by
  unfold run_step
  cases p.1 with
  | none => exact states_one_of_simulate_tick expf p.2 s i h
  | some m => exact states_one_of_simulate_tick expf p.2 (s.set_contact_matrix m) i h

theorem states_one_of_run_steps (expf : ℚ → ℚ)
    (steps : List (Option (ℕ → ℕ → ℚ) × (ℕ → ℚ)))
    (s : VectorizedSIRSimulator) (i : ℕ) (h : s.states i = 1) :
    (run_steps expf steps s).states i = 1 := by
  induction steps generalizing s with
  | nil => exact h
  | cons p ps ih =>
    exact ih (run_step expf s p) (states_one_of_run_step expf p s i h)

/-- **C1.** Infection is monotone: across any sequence of
`simulate_tick` calls (with no intervening `initialize_infections`;
the contact matrix may be rebound between ticks), the set of indices
with `states[i] == 1` after tick `k` contains the set after tick
`k-1`; in particular a single `simulate_tick` never moves an entry of
`states` from `1` (infected) back to `0` (susceptible). -/
theorem infection_monotone (expf : ℚ → ℚ)
    (steps : List (Option (ℕ → ℕ → ℚ) × (ℕ → ℚ)))
    (p : Option (ℕ → ℕ → ℚ) × (ℕ → ℚ))
    (s : VectorizedSIRSimulator) (i : ℕ)
    (h : (run_steps expf steps s).states i = 1) :
    (run_steps expf (steps ++ [p]) s).states i = 1 := by
  have : run_steps expf (steps ++ [p]) s
      = run_step expf (run_steps expf steps s) p := by
    simp [run_steps, List.foldl_append]
  rw [this]
  exact states_one_of_run_step expf p _ i h

/-- Witness for C1 at a concrete simulator: index `0` is infected after
the empty tick sequence and stays infected after one more tick. -/
theorem infection_monotone_witness :
    (run_steps (fun _ => 1) []
        (initialize_infections (init 1 2) [0])).states 0 = 1
    ∧ (run_steps (fun _ => 1) ([] ++ [(some (fun _ _ => 1), fun _ => 0)])
        (initialize_infections (init 1 2) [0])).states 0 = 1 := by
  refine ⟨by decide, ?_⟩
  exact infection_monotone (fun _ => 1) [] (some (fun _ _ => 1), fun _ => 0)
    (initialize_infections (init 1 2) [0]) 0 (by decide)

theorem mask_inv_simulate_tick (expf : ℚ → ℚ) (rand : ℕ → ℚ)
    (s : VectorizedSIRSimulator)
    (h : ∀ j, s.susceptible_mask j = true ↔ s.states j = 0) (i : ℕ) :
    (simulate_tick expf rand s).1.susceptible_mask i = true
      ↔ (simulate_tick expf rand s).1.states i = 0 := by
  unfold simulate_tick
  cases hm : s.contact_matrix with
  | none => simpa using h i
  | some m =>
    simp only
    split
    · simp
    · exact h i

theorem mask_inv_run_steps (expf : ℚ → ℚ)
    (steps : List (Option (ℕ → ℕ → ℚ) × (ℕ → ℚ)))
    (s : VectorizedSIRSimulator)
    (h : ∀ j, s.susceptible_mask j = true ↔ s.states j = 0) (i : ℕ) :
    (run_steps expf steps s).susceptible_mask i = true
      ↔ (run_steps expf steps s).states i = 0 := by
  induction steps generalizing s with
  | nil => exact h i
  | cons p ps ih =>
    refine ih (run_step expf s p) (fun j => ?_)
    unfold run_step
    cases p.1 with
    | none => exact mask_inv_simulate_tick expf p.2 s h j
    | some m => exact mask_inv_simulate_tick expf p.2 (s.set_contact_matrix m) (by simpa [set_contact_matrix] using h) j

/-- **C2.** The susceptible mask invariant: after
`initialize_infections(seed_indices)` (with in-range seeds, as the
numpy fancy-indexing assignment requires) and after every subsequent
sequence of `simulate_tick` calls, `susceptible_mask[i]` is `True`
exactly when `states[i] == 0`, for every node index `i < num_nodes`,
although the mask is only ever updated incrementally. -/
theorem susceptible_mask_correct (expf : ℚ → ℚ)
    (steps : List (Option (ℕ → ℕ → ℚ) × (ℕ → ℚ)))
    (s : VectorizedSIRSimulator) (seeds : List ℕ)
    (hseeds : ∀ x ∈ seeds, x < s.num_nodes)
    (i : ℕ) (hi : i < s.num_nodes) :
    (run_steps expf steps (s.initialize_infections seeds)).susceptible_mask i = true
      ↔ (run_steps expf steps (s.initialize_infections seeds)).states i = 0 := by
  refine mask_inv_run_steps expf steps _ (fun j => ?_) i
  by_cases hj : j ∈ seeds <;> simp [initialize_infections, hj]

/-- Witness for C2 at a concrete simulator, seed list and tick. -/
theorem susceptible_mask_correct_witness :
    (∀ x ∈ [0], x < (init 1 3).num_nodes) ∧ (1 : ℕ) < (init 1 3).num_nodes
    ∧ ((run_steps (fun _ => 1) [(some (fun _ _ => 1), fun _ => 0)]
          ((init 1 3).initialize_infections [0])).susceptible_mask 1 = true
        ↔ (run_steps (fun _ => 1) [(some (fun _ _ => 1), fun _ => 0)]
          ((init 1 3).initialize_infections [0])).states 1 = 0) := by
  refine ⟨by decide, by decide, ?_⟩
  exact susceptible_mask_correct (fun _ => 1) [(some (fun _ _ => 1), fun _ => 0)]
    (init 1 3) [0] (by decide) 1 (by decide)

/-- **C6.** With `beta = 0` and a bound contact matrix,
`simulate_tick` returns `(0, [])` and changes neither `states` nor
`susceptible_mask`: every transmission probability is
`1 - exp (-0) = 0` and no uniform draw in `[0,1)` is `< 0`.
(`expf 0 = 1` is the one property of `np.exp` used; `0 ≤ rand i`
holds for `np.random.rand` draws.) -/
theorem beta_zero_tick_is_noop (expf : ℚ → ℚ) (rand : ℕ → ℚ)
    (s : VectorizedSIRSimulator) (m : ℕ → ℕ → ℚ)
    (hbeta : s.beta = 0) (hm : s.contact_matrix = some m)
    (hexp : expf 0 = 1) (hrand : ∀ i, 0 ≤ rand i) :
    (simulate_tick expf rand s).2 = (0, [])
    ∧ (∀ i, (simulate_tick expf rand s).1.states i = s.states i)
    ∧ (∀ i, (simulate_tick expf rand s).1.susceptible_mask i
        = s.susceptible_mask i) := by
  have hfilter :
      (List.range s.num_nodes).filter
        (fun i => decide (rand i < 1 - expf (-(s.beta * exposure m s.states s.num_nodes i)))
          && s.susceptible_mask i) = [] := by
    refine List.filter_eq_nil.2 (fun i _ => ?_)
    have : ¬ rand i < 1 - expf (-(s.beta * exposure m s.states s.num_nodes i)) := by
      rw [hbeta]
      simp [hexp]
      exact hrand i
    simp [this]
  constructor
  · unfold simulate_tick
    rw [hm]
    simp only
    rw [hfilter]
    rfl
  · constructor <;> intro i <;>
    · unfold simulate_tick
      rw [hm]
      simp only
      rw [hfilter]
      simp

/-- Witness for C6 at a concrete zero-beta simulator with a bound
matrix. -/
theorem beta_zero_tick_is_noop_witness :
    ((init 0 2).set_contact_matrix (fun _ _ => 1)).beta = 0
    ∧ ((init 0 2).set_contact_matrix (fun _ _ => 1)).contact_matrix = some (fun _ _ => 1)
    ∧ (simulate_tick (fun _ => 1) (fun _ => 1/2)
        ((init 0 2).set_contact_matrix (fun _ _ => 1))).2 = (0, []) := by
  refine ⟨rfl, rfl, ?_⟩
  exact (beta_zero_tick_is_noop (fun _ => 1) (fun _ => 1/2)
    ((init 0 2).set_contact_matrix (fun _ _ => 1)) (fun _ _ => 1)
    rfl rfl rfl (fun i => by norm_num)).1

end VectorizedSIRSimulator

namespace SparseContactNetwork

theorem lookupEntry_addEntry_same (m : List ((ℕ × ℕ) × ℚ)) (i j : ℕ) (w : ℚ) :
    (lookupEntry (addEntry m (i, j) w) i j).getD 0
      = (lookupEntry m i j).getD 0 + w := by
  induction m with
  | nil => simp [addEntry, lookupEntry]
  | cons e rest ih =>
    by_cases he : e.1 = (i, j)
    · simp [addEntry, he, lookupEntry, List.find?]
    · simpa [addEntry, he, lookupEntry, List.find?] using ih

theorem lookupEntry_addEntry_other (m : List ((ℕ × ℕ) × ℚ)) (k : ℕ × ℕ)
    (w : ℚ) (i j : ℕ) (h : k ≠ (i, j)) :
    lookupEntry (addEntry m k w) i j = lookupEntry m i j := by
  induction m with
  | nil => simp [addEntry, lookupEntry, h]
  | cons e rest ih =>
    simp only [addEntry]
    by_cases he : e.1 = k
    · rw [if_pos he]
      have hne : e.1 ≠ (i, j) := by rw [he]; exact h
      unfold lookupEntry
      rw [List.find?_cons_of_neg _ (by simpa using hne),
        List.find?_cons_of_neg _ (by simpa using hne)]
    · rw [if_neg he]
      by_cases hij : e.1 = (i, j)
      · unfold lookupEntry
        rw [List.find?_cons_of_pos _ (by simpa using hij),
          List.find?_cons_of_pos _ (by simpa using hij)]
      · unfold lookupEntry
        rw [List.find?_cons_of_neg _ (by simpa using hij),
          List.find?_cons_of_neg _ (by simpa using hij)]
        exact ih

theorem cooSum_nil (i j : ℕ) : cooSum [] i j = 0 := rfl

theorem cooSum_cons (t : ℕ × ℕ × ℚ) (l : List (ℕ × ℕ × ℚ)) (i j : ℕ) :
    cooSum (t :: l) i j
      = (if t.1 = i ∧ t.2.1 = j then t.2.2 else 0) + cooSum l i j := by
  by_cases h : t.1 = i ∧ t.2.1 = j <;> simp [cooSum, List.filter_cons, h]

theorem cooSum_append (l₁ l₂ : List (ℕ × ℕ × ℚ)) (i j : ℕ) :
    cooSum (l₁ ++ l₂) i j = cooSum l₁ i j + cooSum l₂ i j := by
  simp [cooSum, List.filter_append]

theorem csr_foldl_val (l : List (ℕ × ℕ × ℚ)) (acc : List ((ℕ × ℕ) × ℚ))
    (i j : ℕ) :
    (lookupEntry (l.foldl (fun m t => addEntry m (t.1, t.2.1) t.2.2) acc) i j).getD 0
      = (lookupEntry acc i j).getD 0 + cooSum l i j := by
  induction l generalizing acc with
  | nil => simp [cooSum_nil]
  | cons t rest ih =>
    rw [List.foldl_cons, ih, cooSum_cons]
    by_cases h : t.1 = i ∧ t.2.1 = j
    · have : (t.1, t.2.1) = (i, j) := by rw [h.1, h.2]
      rw [this, lookupEntry_addEntry_same]
      simp [h]
      ring
    · have : (t.1, t.2.1) ≠ (i, j) := by
        intro hc
        exact h ⟨congrArg Prod.fst hc, congrArg Prod.snd hc⟩
      rw [lookupEntry_addEntry_other _ _ _ _ _ this]
      simp [h]

theorem matrixEntry_eq_cooSum (edges : List (ℤ × ℤ × ℚ)) (i j : ℕ) :
    matrixEntry (build_from_edges edges) i j
      = cooSum (cooEntries (build_from_edges edges).nodes edges) i j := by
  by_cases h : edges = []
  · subst h
    simp [build_from_edges, matrixEntry, lookupEntry, cooEntries, cooSum_nil]
  · simp only [build_from_edges, h, if_false, matrixEntry, csrFromCOO]
    rw [csr_foldl_val]
    simp [lookupEntry]

theorem cooSum_pair (a b : ℕ) (w : ℚ) (i j : ℕ) :
    cooSum [(a, b, w), (b, a, w)] i j
      = (if a = i ∧ b = j then w else 0) + (if b = i ∧ a = j then w else 0) := by
  rw [cooSum_cons, cooSum_cons, cooSum_nil]
  ring

theorem cooSum_cooEntries_symm (nodes : List ℤ) (edges : List (ℤ × ℤ × ℚ))
    (i j : ℕ) :
    cooSum (cooEntries nodes edges) i j = cooSum (cooEntries nodes edges) j i := by
  induction edges with
  | nil => simp [cooEntries, cooSum_nil]
  | cons e rest ih =>
    have hflat : cooEntries nodes (e :: rest)
        = [(nodes.indexOf e.1, nodes.indexOf e.2.1, e.2.2),
           (nodes.indexOf e.2.1, nodes.indexOf e.1, e.2.2)] ++ cooEntries nodes rest := by
      simp [cooEntries]
    rw [hflat, cooSum_append, cooSum_append, cooSum_pair, cooSum_pair, ih]
    have : ((if nodes.indexOf e.1 = i ∧ nodes.indexOf e.2.1 = j then e.2.2 else 0)
          + (if nodes.indexOf e.2.1 = i ∧ nodes.indexOf e.1 = j then e.2.2 else 0))
        = ((if nodes.indexOf e.1 = j ∧ nodes.indexOf e.2.1 = i then e.2.2 else 0)
          + (if nodes.indexOf e.2.1 = j ∧ nodes.indexOf e.1 = i then e.2.2 else 0)) := by
      rw [add_comm]
      exact congrArg₂ (· + ·) (if_congr and_comm rfl rfl) (if_congr and_comm rfl rfl)
    rw [this]

theorem mem_nodesOf (edges : List (ℤ × ℤ × ℚ)) (e : ℤ × ℤ × ℚ) :
    e ∈ edges → e.1 ∈ nodesOf edges ∧ e.2.1 ∈ nodesOf edges := by
  induction edges with
  | nil => intro he; cases he
  | cons f rest ih =>
    intro he
    rcases List.mem_cons.1 he with he | he
    · subst he; simp [nodesOf]
    · have := ih he
      simp only [nodesOf, List.foldr_cons] at this ⊢
      exact ⟨Finset.mem_insert_of_mem (Finset.mem_insert_of_mem this.1),
        Finset.mem_insert_of_mem (Finset.mem_insert_of_mem this.2)⟩

theorem mem_sorted_nodes (edges : List (ℤ × ℤ × ℚ)) (e : ℤ × ℤ × ℚ)
    (he : e ∈ edges) : e.1 ∈ sorted_nodes edges ∧ e.2.1 ∈ sorted_nodes edges := by
  have := mem_nodesOf edges e he
  simpa [sorted_nodes, Finset.mem_sort] using this

theorem cooSum_diag_eq_zero (nodes : List ℤ) (edges : List (ℤ × ℤ × ℚ))
    (h : ∀ e ∈ edges, nodes.indexOf e.1 ≠ nodes.indexOf e.2.1) (i : ℕ) :
    cooSum (cooEntries nodes edges) i i = 0 := by
  induction edges with
  | nil => simp [cooEntries, cooSum_nil]
  | cons e rest ih =>
    have hflat : cooEntries nodes (e :: rest)
        = [(nodes.indexOf e.1, nodes.indexOf e.2.1, e.2.2),
           (nodes.indexOf e.2.1, nodes.indexOf e.1, e.2.2)] ++ cooEntries nodes rest := by
      simp [cooEntries]
    rw [hflat, cooSum_append, cooSum_pair]
    have hne : nodes.indexOf e.1 ≠ nodes.indexOf e.2.1 := h e (by simp)
    have h1 : ¬(nodes.indexOf e.1 = i ∧ nodes.indexOf e.2.1 = i) := by
      rintro ⟨h1, h2⟩; exact hne (h1.trans h2.symm)
    have h2 : ¬(nodes.indexOf e.2.1 = i ∧ nodes.indexOf e.1 = i) := by
      rintro ⟨h1, h2⟩; exact hne (h2.trans h1.symm)
    rw [ih (fun f hf => h f (by simp [hf]))]
    simp [h1, h2]

theorem addEntry_keys (m : List ((ℕ × ℕ) × ℚ)) (k : ℕ × ℕ) (w : ℚ) :
    (addEntry m k w).map Prod.fst
      = if k ∈ m.map Prod.fst then m.map Prod.fst
        else m.map Prod.fst ++ [k] := by
  induction m with
  | nil => simp [addEntry]
  | cons e rest ih =>
    simp only [addEntry]
    by_cases he : e.1 = k
    · rw [if_pos he]
      simp [he]
    · rw [if_neg he]
      by_cases hk : k ∈ rest.map Prod.fst
      · simp [hk, ih, Ne.symm he]
      · simp [hk, ih, Ne.symm he]

theorem addEntry_keys_nodup (m : List ((ℕ × ℕ) × ℚ)) (k : ℕ × ℕ) (w : ℚ)
    (h : (m.map Prod.fst).Nodup) : ((addEntry m k w).map Prod.fst).Nodup := by
  rw [addEntry_keys]
  by_cases hk : k ∈ m.map Prod.fst
  · simpa [hk] using h
  · simp [hk, List.nodup_append, h]

theorem csr_foldl_keys_nodup (l : List (ℕ × ℕ × ℚ))
    (acc : List ((ℕ × ℕ) × ℚ)) (h : (acc.map Prod.fst).Nodup) :
    ((l.foldl (fun m t => addEntry m (t.1, t.2.1) t.2.2) acc).map Prod.fst).Nodup := by
  induction l generalizing acc with
  | nil => exact h
  | cons t rest ih => exact ih _ (addEntry_keys_nodup _ _ _ h)

/-- **C3.** For every edge list of `(u, v, weight)` triples with
`u ≠ v`, the matrix produced by `build_from_edges` is symmetric
(`matrix[i][j] == matrix[j][i]` for every index pair), has zero
diagonal, and merges duplicate `(i, j)` contributions by summing them
into one entry: the stored keys are pairwise distinct and the value at
`(i, j)` is the sum of every directed COO contribution to `(i, j)`. -/
theorem build_from_edges_spec (edges : List (ℤ × ℤ × ℚ))
    (h : ∀ e ∈ edges, e.1 ≠ e.2.1) :
    (∀ i j, matrixEntry (build_from_edges edges) i j
        = matrixEntry (build_from_edges edges) j i)
    ∧ (∀ i, matrixEntry (build_from_edges edges) i i = 0)
    ∧ ((build_from_edges edges).csr.map Prod.fst).Nodup
    ∧ (∀ i j, matrixEntry (build_from_edges edges) i j
        = cooSum (cooEntries (build_from_edges edges).nodes edges) i j) := by
  have hcs := matrixEntry_eq_cooSum edges
  refine ⟨fun i j => ?_, fun i => ?_, ?_, hcs⟩
  · rw [hcs, hcs, cooSum_cooEntries_symm]
  · rw [hcs]
    by_cases hne : edges = []
    · subst hne; simp [cooEntries, cooSum_nil]
    · have hnodes : (build_from_edges edges).nodes = sorted_nodes edges := by
        simp [build_from_edges, hne]
      rw [hnodes]
      refine cooSum_diag_eq_zero _ edges (fun e he => ?_) i
      have hmem := mem_sorted_nodes edges e he
      intro hc
      exact h e he ((List.indexOf_inj hmem.1 hmem.2).1 hc)
  · by_cases hne : edges = []
    · subst hne; simp [build_from_edges]
    · simp only [build_from_edges, hne, if_false, csrFromCOO]
      exact csr_foldl_keys_nodup _ _ (by simp)

/-- Witness for C3 at a concrete edge list with a duplicate pair. -/
theorem build_from_edges_spec_witness :
    (∀ e ∈ [((1 : ℤ), (2 : ℤ), (1 : ℚ)/2), (1, 2, 1/4), (2, 3, 1)], e.1 ≠ e.2.1)
    ∧ (∀ i, matrixEntry
        (build_from_edges [((1 : ℤ), (2 : ℤ), (1 : ℚ)/2), (1, 2, 1/4), (2, 3, 1)]) i i = 0) := by
  refine ⟨by decide, ?_⟩
  exact (build_from_edges_spec
    [((1 : ℤ), (2 : ℤ), (1 : ℚ)/2), (1, 2, 1/4), (2, 3, 1)] (by decide)).2.1

/-- **C10.** The silent-drop policy holds only in the id→index
direction: `map_ids_to_indices` returns the indices of exactly the
ids that are present (it equals the `filterMap` of the partial
`node_to_idx` map, skipping absent ids without error), whereas
`map_indices_to_ids` succeeds on a list of in-range indices but
returns `none` (a `KeyError`) as soon as the list contains an index
that is not a key of `idx_to_node`. -/
theorem lookup_miss_policy (net : SparseContactNetwork)
    (node_ids : List ℤ) (indices : List ℕ) :
    map_ids_to_indices net node_ids = node_ids.filterMap (node_to_idx? net)
    ∧ ((∀ i ∈ indices, i < net.nodes.length) →
        ∃ l, map_indices_to_ids net indices = some l
          ∧ l.length = indices.length)
    ∧ (∀ i ∈ indices, net.nodes.length ≤ i →
        map_indices_to_ids net indices = none) := by
  refine ⟨?_, ?_, ?_⟩
  · induction node_ids with
    | nil => simp [map_ids_to_indices]
    | cons a l ih =>
      by_cases ha : a ∈ net.nodes <;>
      · simp only [map_ids_to_indices, List.filter_cons, List.filterMap_cons,
          node_to_idx?, ha, decide_True, decide_False, if_pos, if_neg,
          List.map_cons, ite_true, ite_false]
        simpa [map_ids_to_indices] using ih
  · intro hall
    induction indices with
    | nil => exact ⟨[], rfl, rfl⟩
    | cons i rest ih =>
      have hi : i < net.nodes.length := hall i (by simp)
      obtain ⟨l, hl, hlen⟩ := ih (fun j hj => hall j (by simp [hj]))
      refine ⟨net.nodes.get ⟨i, hi⟩ :: l, ?_, by simp [hlen]⟩
      simp [map_indices_to_ids, List.getElem?_eq_getElem hi, hl]
  · induction indices with
    | nil => intro i hi; cases hi
    | cons j rest ih =>
      intro i hi hge
      rcases List.mem_cons.1 hi with rfl | hmem
      · have hn : net.nodes[i]? = none := List.getElem?_eq_none hge
        simp [map_indices_to_ids, hn]
      · cases hj : net.nodes[j]? with
        | none => simp [map_indices_to_ids, hj]
        | some nid => simp [map_indices_to_ids, hj, ih i hmem hge]

/-- Witness for C10 at a concrete network: index `7` is out of range,
so `map_indices_to_ids` fails. -/
theorem lookup_miss_policy_witness :
    ((7 : ℕ) ∈ [0, 7]
      ∧ (SparseContactNetwork.mk [10, 20] []).nodes.length ≤ 7)
    ∧ map_indices_to_ids (SparseContactNetwork.mk [10, 20] []) [0, 7] = none := by
  refine ⟨⟨by decide, by decide⟩, ?_⟩
  exact (lookup_miss_policy (SparseContactNetwork.mk [10, 20] []) [] [0, 7]).2.2
    7 (by decide) (by decide)

end SparseContactNetwork

namespace ContactGraphBuilder

theorem lookupPair_updateMax_same (g : List ((ℤ × ℤ) × ℚ)) (k : ℤ × ℤ) (w : ℚ) :
    lookupPair (updateMax g k w) k
      = some ((lookupPair g k).elim w (fun m => max m w)) := by
  induction g with
  | nil => simp [updateMax, lookupPair]
  | cons e rest ih =>
    simp only [updateMax]
    by_cases he : e.1 = k
    · rw [if_pos he]
      unfold lookupPair
      rw [List.find?_cons_of_pos _ (by simpa using he),
        List.find?_cons_of_pos _ (by simpa using he)]
      simp
    · rw [if_neg he]
      unfold lookupPair
      rw [List.find?_cons_of_neg _ (by simpa using he),
        List.find?_cons_of_neg _ (by simpa using he)]
      exact ih

theorem lookupPair_updateMax_other (g : List ((ℤ × ℤ) × ℚ)) (k k' : ℤ × ℤ)
    (w : ℚ) (h : k ≠ k') :
    lookupPair (updateMax g k w) k' = lookupPair g k' := by
  induction g with
  | nil => simp [updateMax, lookupPair, h]
  | cons e rest ih =>
    simp only [updateMax]
    by_cases he : e.1 = k
    · rw [if_pos he]
      have hne : e.1 ≠ k' := by rw [he]; exact h
      unfold lookupPair
      rw [List.find?_cons_of_neg _ (by simpa using hne),
        List.find?_cons_of_neg _ (by simpa using hne)]
    · rw [if_neg he]
      by_cases hk : e.1 = k'
      · unfold lookupPair
        rw [List.find?_cons_of_pos _ (by simpa using hk),
          List.find?_cons_of_pos _ (by simpa using hk)]
      · unfold lookupPair
        rw [List.find?_cons_of_neg _ (by simpa using hk),
          List.find?_cons_of_neg _ (by simpa using hk)]
        exact ih

theorem lookupPair_dictMax_same (g : List ((ℤ × ℤ) × ℚ)) (k : ℤ × ℤ) (w : ℚ) :
    lookupPair (dictMax g k w) k
      = some ((lookupPair g k).elim (max 0 w) (fun m => max m w)) := by
  induction g with
  | nil => simp [dictMax, lookupPair]
  | cons e rest ih =>
    simp only [dictMax]
    by_cases he : e.1 = k
    · rw [if_pos he]
      unfold lookupPair
      rw [List.find?_cons_of_pos _ (by simpa using he),
        List.find?_cons_of_pos _ (by simpa using he)]
      simp
    · rw [if_neg he]
      unfold lookupPair
      rw [List.find?_cons_of_neg _ (by simpa using he),
        List.find?_cons_of_neg _ (by simpa using he)]
      exact ih

theorem lookupPair_dictMax_other (g : List ((ℤ × ℤ) × ℚ)) (k k' : ℤ × ℤ)
    (w : ℚ) (h : k ≠ k') :
    lookupPair (dictMax g k w) k' = lookupPair g k' := by
  induction g with
  | nil => simp [dictMax, lookupPair, h]
  | cons e rest ih =>
    simp only [dictMax]
    by_cases he : e.1 = k
    · rw [if_pos he]
      have hne : e.1 ≠ k' := by rw [he]; exact h
      unfold lookupPair
      rw [List.find?_cons_of_neg _ (by simpa using hne),
        List.find?_cons_of_neg _ (by simpa using hne)]
    · rw [if_neg he]
      by_cases hk : e.1 = k'
      · unfold lookupPair
        rw [List.find?_cons_of_pos _ (by simpa using hk),
          List.find?_cons_of_pos _ (by simpa using hk)]
      · unfold lookupPair
        rw [List.find?_cons_of_neg _ (by simpa using hk),
          List.find?_cons_of_neg _ (by simpa using hk)]
        exact ih

theorem lookupPair_foldl_updateMax (l : List (ℤ × ℤ × ℚ))
    (g : List ((ℤ × ℤ) × ℚ)) (k : ℤ × ℤ) :
    lookupPair (l.foldl (fun g e => updateMax g (normKey e.1 e.2.1) e.2.2) g) k
      = ((l.filter (fun e => decide (normKey e.1 e.2.1 = k))).map
          (fun e => e.2.2)).foldl
            (fun o w => some (o.elim w (fun m => max m w))) (lookupPair g k) := by
  induction l generalizing g with
  | nil => rfl
  | cons e rest ih =>
    rw [List.foldl_cons, ih]
    by_cases hk : normKey e.1 e.2.1 = k
    · rw [hk, List.filter_cons]
      simp only [hk, decide_True, if_pos, List.map_cons, List.foldl_cons]
      rw [lookupPair_updateMax_same]
    · rw [List.filter_cons]
      simp only [hk, decide_False, Bool.false_eq_true, if_false]
      rw [lookupPair_updateMax_other _ _ _ _ hk]

theorem lookupPair_foldl_dictMax (l : List (ℤ × ℤ × ℚ))
    (g : List ((ℤ × ℤ) × ℚ)) (k : ℤ × ℤ) :
    lookupPair (l.foldl (fun g e => dictMax g (normKey e.1 e.2.1) e.2.2) g) k
      = ((l.filter (fun e => decide (normKey e.1 e.2.1 = k))).map
          (fun e => e.2.2)).foldl
            (fun o w => some (o.elim (max 0 w) (fun m => max m w)))
            (lookupPair g k) := by
  induction l generalizing g with
  | nil => rfl
  | cons e rest ih =>
    rw [List.foldl_cons, ih]
    by_cases hk : normKey e.1 e.2.1 = k
    · rw [hk, List.filter_cons]
      simp only [hk, decide_True, if_pos, List.map_cons, List.foldl_cons]
      rw [lookupPair_dictMax_same]
    · rw [List.filter_cons]
      simp only [hk, decide_False, Bool.false_eq_true, if_false]
      rw [lookupPair_dictMax_other _ _ _ _ hk]

theorem foldl_optStep_some (ws : List ℚ) (m : ℚ) :
    ws.foldl (fun o w => some (o.elim w (fun mm => max mm w))) (some m)
      = some (ws.foldl max m) := by
  induction ws generalizing m with
  | nil => rfl
  | cons w rest ih => simpa using ih (max m w)

theorem foldl_optStepD_some (ws : List ℚ) (m : ℚ) :
    ws.foldl (fun o w => some (o.elim (max 0 w) (fun mm => max mm w))) (some m)
      = some (ws.foldl max m) := by
  induction ws generalizing m with
  | nil => rfl
  | cons w rest ih => simpa using ih (max m w)

theorem build_daily_graph_eq_flat (sessions : List (List (ℤ × ℤ × ℚ))) :
    build_daily_graph sessions
      = (sessions.flatMap id).foldl
          (fun g e => updateMax g (normKey e.1 e.2.1) e.2.2) [] := by
  unfold build_daily_graph
  generalize ([] : List ((ℤ × ℤ) × ℚ)) = g
  induction sessions generalizing g with
  | nil => rfl
  | cons ses rest ih => simp [List.foldl_append, ih]

theorem dictMax_keys (g : List ((ℤ × ℤ) × ℚ)) (k : ℤ × ℤ) (w : ℚ) :
    (dictMax g k w).map Prod.fst
      = if k ∈ g.map Prod.fst then g.map Prod.fst
        else g.map Prod.fst ++ [k] := by
  induction g with
  | nil => simp [dictMax]
  | cons e rest ih =>
    simp only [dictMax]
    by_cases he : e.1 = k
    · rw [if_pos he]
      simp [he]
    · rw [if_neg he]
      by_cases hk : k ∈ rest.map Prod.fst
      · simp [hk, ih, Ne.symm he]
      · simp [hk, ih, Ne.symm he]

theorem dictMax_keys_nodup (g : List ((ℤ × ℤ) × ℚ)) (k : ℤ × ℤ) (w : ℚ)
    (h : (g.map Prod.fst).Nodup) : ((dictMax g k w).map Prod.fst).Nodup := by
  rw [dictMax_keys]
  by_cases hk : k ∈ g.map Prod.fst
  · simpa [hk] using h
  · simp [hk, List.nodup_append, h]

theorem foldl_dictMax_keys_nodup (l : List (ℤ × ℤ × ℚ))
    (g : List ((ℤ × ℤ) × ℚ)) (h : (g.map Prod.fst).Nodup) :
    ((l.foldl (fun d e => dictMax d (normKey e.1 e.2.1) e.2.2) g).map
      Prod.fst).Nodup := by
  induction l generalizing g with
  | nil => exact h
  | cons e rest ih =>
    rw [List.foldl_cons]
    exact ih _ (dictMax_keys_nodup _ _ _ h)

theorem edge_dict_keys_nodup (sessions : List (List (ℤ × ℤ × ℚ))) :
    ((edge_dict sessions).map Prod.fst).Nodup := by
  unfold edge_dict
  exact foldl_dictMax_keys_nodup _ _ (by simp)

/-- **C5.** When the same unordered student pair receives edges from
several class sessions of one day, both `build_daily_graph` and the
`edge_dict` of `build_sparse_daily_network` assign the pair a single
edge (the dictionary keys are pairwise distinct) whose weight is the
maximum of the per-session weights, not their sum.  (Per-session
weights are nonnegative: `1/(1+d) * min(duration, 1.5) ≥ 0`.) -/
theorem session_merge_takes_max (sessions : List (List (ℤ × ℤ × ℚ)))
    (k : ℤ × ℤ) (hpos : ∀ w ∈ pairWeights sessions k, 0 ≤ w) :
    lookupPair (build_daily_graph sessions) k
      = maxOfWeights (pairWeights sessions k)
    ∧ lookupPair (edge_dict sessions) k
      = maxOfWeights (pairWeights sessions k)
    ∧ ((edge_dict sessions).map Prod.fst).Nodup := by
  refine ⟨?_, ?_, edge_dict_keys_nodup sessions⟩
  · rw [build_daily_graph_eq_flat, lookupPair_foldl_updateMax]
    have hnil : lookupPair ([] : List ((ℤ × ℤ) × ℚ)) k = none := rfl
    rw [hnil]
    cases hw : pairWeights sessions k with
    | nil =>
      unfold pairWeights at hw
      rw [hw]
      rfl
    | cons w ws =>
      unfold pairWeights at hw
      rw [hw]
      rw [List.foldl_cons]
      simp only [Option.elim_none]
      rw [foldl_optStep_some]
      rfl
  · unfold edge_dict
    rw [lookupPair_foldl_dictMax]
    have hnil : lookupPair ([] : List ((ℤ × ℤ) × ℚ)) k = none := rfl
    rw [hnil]
    cases hw : pairWeights sessions k with
    | nil =>
      unfold pairWeights at hw
      rw [hw]
      rfl
    | cons w ws =>
      have hw0 : 0 ≤ w := hpos w (by rw [hw]; simp)
      unfold pairWeights at hw
      rw [hw]
      rw [List.foldl_cons]
      simp only [Option.elim_none]
      rw [foldl_optStepD_some, max_eq_right hw0]
      rfl

/-- Witness for C5: the pair `(1, 2)` gets weight `1` in one session
and `2` (as `(2, 1)`) in another; both merges keep the maximum `2`. -/
theorem session_merge_takes_max_witness :
    (∀ w ∈ pairWeights [[((1 : ℤ), (2 : ℤ), (1 : ℚ))], [(2, 1, 2)]] (1, 2), 0 ≤ w)
    ∧ lookupPair
        (build_daily_graph [[((1 : ℤ), (2 : ℤ), (1 : ℚ))], [(2, 1, 2)]]) (1, 2)
      = maxOfWeights
          (pairWeights [[((1 : ℤ), (2 : ℤ), (1 : ℚ))], [(2, 1, 2)]] (1, 2)) := by
  refine ⟨by decide, ?_⟩
  exact (session_merge_takes_max [[((1 : ℤ), (2 : ℤ), (1 : ℚ))], [(2, 1, 2)]]
    (1, 2) (by decide)).1

end ContactGraphBuilder

namespace NetworkCacheManager

theorem get_or_build_hit (c : NetworkCacheManager) (d : String)
    (rows : List (List (ℤ × ℤ × ℚ))) (net : SparseContactNetwork)
    (h : c.cacheLookup d = some net) :
    get_or_build c d rows = (net, { c with hits := c.hits + 1 }) := by
  unfold get_or_build
  rw [h]

theorem get_or_build_preserves (c : NetworkCacheManager) (d : String)
    (net : SparseContactNetwork) (h : c.cacheLookup d = some net)
    (d' : String) (rows : List (List (ℤ × ℤ × ℚ))) :
    (get_or_build c d' rows).2.cacheLookup d = some net := by
  unfold get_or_build
  cases hl : c.cacheLookup d' with
  | some n => simpa [cacheLookup] using h
  | none =>
    have hne : d' ≠ d := by
      intro he
      rw [he, h] at hl
      cases hl
    simp only [cacheLookup]
    rw [List.find?_cons_of_neg _ (by simpa using hne)]
    exact h

theorem run_calls_preserves (calls : List (String × List (List (ℤ × ℤ × ℚ))))
    (c : NetworkCacheManager) (d : String) (net : SparseContactNetwork)
    (h : c.cacheLookup d = some net) :
    (run_calls c calls).cacheLookup d = some net := by
  induction calls generalizing c with
  | nil => exact h
  | cons p rest ih =>
    unfold run_calls
    rw [List.foldl_cons]
    exact ih _ (get_or_build_preserves c d net h p.1 p.2)

/-- **C9.** A first `get_or_build` call with a fresh day label counts
a miss, leaves the hit counter alone and stores the built network; and
after any sequence of later calls (any labels, any rows), a call with
the same label returns exactly the stored network — independent of the
rows passed — counts a hit, and leaves the miss counter and the cache
unchanged. -/
theorem cache_get_or_build_spec (c : NetworkCacheManager) (d : String)
    (rows : List (List (ℤ × ℤ × ℚ)))
    (hmiss : c.cacheLookup d = none) :
    ((get_or_build c d rows).2.misses = c.misses + 1
      ∧ (get_or_build c d rows).2.hits = c.hits
      ∧ (get_or_build c d rows).1
          = ContactGraphBuilder.build_sparse_daily_network rows
      ∧ (get_or_build c d rows).2.cacheLookup d = some (get_or_build c d rows).1)
    ∧ ∀ (calls : List (String × List (List (ℤ × ℤ × ℚ))))
        (rows' : List (List (ℤ × ℤ × ℚ))),
        get_or_build (run_calls (get_or_build c d rows).2 calls) d rows'
          = ((get_or_build c d rows).1,
             { run_calls (get_or_build c d rows).2 calls with
               hits := (run_calls (get_or_build c d rows).2 calls).hits + 1 }) := by
  have hstored : (get_or_build c d rows).2.cacheLookup d
      = some (get_or_build c d rows).1 := by
    unfold get_or_build
    rw [hmiss]
    simp [cacheLookup]
  refine ⟨⟨?_, ?_, ?_, hstored⟩, ?_⟩
  · unfold get_or_build
    rw [hmiss]
  · unfold get_or_build
    rw [hmiss]
  · unfold get_or_build
    rw [hmiss]
  · intro calls rows'
    exact get_or_build_hit _ d rows' _
      (run_calls_preserves calls _ d _ hstored)

/-- Witness for C9: an empty cache, one build for `"Lunes"`, an
intervening call for `"Martes"`, then a repeat call for `"Lunes"`. -/
theorem cache_get_or_build_spec_witness :
    (NetworkCacheManager.mk [] 0 0).cacheLookup "Lunes" = none
    ∧ (get_or_build (NetworkCacheManager.mk [] 0 0) "Lunes"
        [[((1 : ℤ), (2 : ℤ), (1 : ℚ))]]).2.misses = 0 + 1
    ∧ get_or_build
        (run_calls (get_or_build (NetworkCacheManager.mk [] 0 0) "Lunes"
            [[((1 : ℤ), (2 : ℤ), (1 : ℚ))]]).2 [("Martes", [])])
        "Lunes" []
      = ((get_or_build (NetworkCacheManager.mk [] 0 0) "Lunes"
            [[((1 : ℤ), (2 : ℤ), (1 : ℚ))]]).1,
         { run_calls (get_or_build (NetworkCacheManager.mk [] 0 0) "Lunes"
              [[((1 : ℤ), (2 : ℤ), (1 : ℚ))]]).2 [("Martes", [])] with
           hits := (run_calls (get_or_build (NetworkCacheManager.mk [] 0 0) "Lunes"
              [[((1 : ℤ), (2 : ℤ), (1 : ℚ))]]).2 [("Martes", [])]).hits + 1 }) := by
  have h := cache_get_or_build_spec (NetworkCacheManager.mk [] 0 0) "Lunes"
    [[((1 : ℤ), (2 : ℤ), (1 : ℚ))]] rfl
  exact ⟨rfl, h.1.1, h.2 [("Martes", [])] []⟩

end NetworkCacheManager

namespace VectorizedPropagationTree

theorem firstSourceNeighbor_spec (row : List (ℕ × ℚ)) (srcs : List ℕ)
    (a : ℕ × ℚ) (h : firstSourceNeighbor row srcs = some a) :
    a.1 ∈ srcs ∧ ∃ l₁ l₂, row = l₁ ++ a :: l₂ ∧ ∀ b ∈ l₁, b.1 ∉ srcs := by
  induction row with
  | nil => cases h
  | cons b rest ih =>
    unfold firstSourceNeighbor at h
    by_cases hb : b.1 ∈ srcs
    · rw [List.find?_cons_of_pos _ (by simpa using hb)] at h
      cases h
      exact ⟨hb, [], rest, rfl, by simp⟩
    · rw [List.find?_cons_of_neg _ (by simpa using hb)] at h
      obtain ⟨h1, l₁, l₂, heq, hall⟩ := ih h
      refine ⟨h1, b :: l₁, l₂, by rw [List.cons_append, heq], ?_⟩
      intro c hc
      rcases List.mem_cons.1 hc with rfl | hc
      · exact hb
      · exact hall c hc

theorem record_transmissions_fields (srcs : List ℕ) (tgts : List ℕ)
    (row : ℕ → List (ℕ × ℚ)) (day : String) (idx_to_node : ℕ → ℤ)
    (t : VectorizedPropagationTree) :
    (record_transmissions t srcs tgts row day idx_to_node).sources
      = t.sources ++ (newEvents srcs tgts row day idx_to_node).map (fun q => q.1)
    ∧ (record_transmissions t srcs tgts row day idx_to_node).targets
      = t.targets ++ (newEvents srcs tgts row day idx_to_node).map (fun q => q.2.1)
    ∧ (record_transmissions t srcs tgts row day idx_to_node).weights
      = t.weights ++ (newEvents srcs tgts row day idx_to_node).map (fun q => q.2.2.1)
    ∧ (record_transmissions t srcs tgts row day idx_to_node).days
      = t.days ++ (newEvents srcs tgts row day idx_to_node).map (fun q => q.2.2.2) := by
  induction tgts generalizing t with
  | nil => simp [record_transmissions, newEvents]
  | cons tgt rest ih =>
    unfold record_transmissions newEvents
    rw [List.foldl_cons, List.filterMap_cons]
    cases hf : firstSourceNeighbor (row tgt) srcs with
    | none =>
      have := ih t
      unfold record_transmissions newEvents at this
      simpa [hf] using this
    | some a =>
      have := ih (appendEvent t (idx_to_node a.1) (idx_to_node tgt) a.2 day)
      unfold record_transmissions newEvents at this
      rcases this with ⟨h1, h2, h3, h4⟩
      refine ⟨?_, ?_, ?_, ?_⟩ <;>
      · first
        | (rw [h1]; simp [appendEvent])
        | (rw [h2]; simp [appendEvent])
        | (rw [h3]; simp [appendEvent])
        | (rw [h4]; simp [appendEvent])

theorem newEvents_targets (srcs : List ℕ) (tgts : List ℕ)
    (row : ℕ → List (ℕ × ℚ)) (day : String) (idx_to_node : ℕ → ℤ) :
    (newEvents srcs tgts row day idx_to_node).map (fun q => q.2.1)
      = (tgts.filter
          (fun tgt => (row tgt).any (fun a => decide (a.1 ∈ srcs)))).map
            idx_to_node := by
  induction tgts with
  | nil => rfl
  | cons tgt rest ih =>
    unfold newEvents at ih ⊢
    rw [List.filterMap_cons, List.filter_cons]
    cases hf : firstSourceNeighbor (row tgt) srcs with
    | none =>
      unfold firstSourceNeighbor at hf
      have hany : (row tgt).any (fun a => decide (a.1 ∈ srcs)) = false := by
        rw [List.any_eq_false]
        intro a ha
        have := List.find?_eq_none.1 hf a ha
        simpa using this
      simp [hany, ih]
    | some a =>
      unfold firstSourceNeighbor at hf
      have hmem := List.mem_of_find?_eq_some hf
      have hpred := List.find?_some hf
      have hany : (row tgt).any (fun b => decide (b.1 ∈ srcs)) = true :=
        List.any_eq_true.2 ⟨a, hmem, hpred⟩
      simp [hany, ih]

theorem map_snd_zip_sublist (s t : List ℤ) :
    ((s.zip t).map Prod.snd).Sublist t := by
  induction s generalizing t with
  | nil => simp
  | cons a s ih =>
    cases t with
    | nil => simp
    | cons b t => simpa using (ih t).cons₂ b

theorem length_filter_snd_le_one (ps : List (ℤ × ℤ)) (v : ℤ)
    (h : (ps.map Prod.snd).Nodup) :
    (ps.filter (fun p => decide (p.2 = v))).length ≤ 1 := by
  induction ps with
  | nil => simp
  | cons p rest ih =>
    rw [List.map_cons, List.nodup_cons] at h
    rw [List.filter_cons]
    by_cases hp : p.2 = v
    · simp only [hp, decide_True, if_pos]
      have hnone : rest.filter (fun q => decide (q.2 = v)) = [] := by
        refine List.filter_eq_nil_iff.2 (fun q hq => ?_)
        simp only [decide_eq_true_eq]
        intro hqv
        exact h.1 (List.mem_map.2 ⟨q, hq, hqv.trans hp.symm⟩)
      rw [hnone]
      simp
    · simp only [hp, decide_False, Bool.false_eq_true, if_false]
      exact ih h.2

theorem inDegree_le_one (t : VectorizedPropagationTree) (v : ℤ)
    (h : t.targets.Nodup) : inDegree t v ≤ 1 := by
  unfold inDegree
  calc ((t.edgePairs.filter (fun p => decide (p.2 = v))).map Prod.fst).dedup.length
      ≤ ((t.edgePairs.filter (fun p => decide (p.2 = v))).map Prod.fst).length :=
        (List.dedup_sublist _).length_le
    _ = (t.edgePairs.filter (fun p => decide (p.2 = v))).length :=
        List.length_map _ _
    _ ≤ 1 := length_filter_snd_le_one _ v
        (((map_snd_zip_sublist t.sources t.targets).nodup) h)

theorem record_targets_nodup (t : VectorizedPropagationTree)
    (srcs tgts : List ℕ) (row : ℕ → List (ℕ × ℚ)) (day : String)
    (idx_to_node : ℕ → ℤ)
    (hinj : Function.Injective idx_to_node) (htn : tgts.Nodup)
    (hfresh : ∀ x ∈ tgts, idx_to_node x ∉ t.targets)
    (htold : t.targets.Nodup) :
    (record_transmissions t srcs tgts row day idx_to_node).targets.Nodup := by
  rw [(record_transmissions_fields srcs tgts row day idx_to_node t).2.1,
    newEvents_targets]
  rw [List.nodup_append]
  refine ⟨htold, (htn.filter _).map hinj, ?_⟩
  intro x hx hx2
  obtain ⟨y, hy, rfl⟩ := List.mem_map.1 hx2
  exact hfresh y (List.mem_of_mem_filter hy) hx

/-- **C4.** In one `record_transmissions` call: the four parallel
lists are extended by exactly one event per target whose adjacency row
contains a neighbor in the sources set (none for other targets); the
appended targets are exactly those qualifying targets; the recorded
source/weight for a target is the first row entry whose neighbor is in
the sources set (everything before it in storage order is not); and —
with fresh, duplicate-free targets and an injective id map, as the
run loop guarantees — every node has in-degree at most `1` in the
`to_networkx` digraph. -/
theorem record_transmissions_spec (t : VectorizedPropagationTree)
    (srcs tgts : List ℕ) (row : ℕ → List (ℕ × ℚ)) (day : String)
    (idx_to_node : ℕ → ℤ)
    (hinj : Function.Injective idx_to_node) (htn : tgts.Nodup)
    (hfresh : ∀ x ∈ tgts, idx_to_node x ∉ t.targets)
    (htold : t.targets.Nodup) :
    ((record_transmissions t srcs tgts row day idx_to_node).sources
        = t.sources ++ (newEvents srcs tgts row day idx_to_node).map (fun q => q.1)
      ∧ (record_transmissions t srcs tgts row day idx_to_node).targets
        = t.targets ++ (newEvents srcs tgts row day idx_to_node).map (fun q => q.2.1)
      ∧ (record_transmissions t srcs tgts row day idx_to_node).weights
        = t.weights ++ (newEvents srcs tgts row day idx_to_node).map (fun q => q.2.2.1)
      ∧ (record_transmissions t srcs tgts row day idx_to_node).days
        = t.days ++ (newEvents srcs tgts row day idx_to_node).map (fun q => q.2.2.2))
    ∧ (newEvents srcs tgts row day idx_to_node).map (fun q => q.2.1)
        = (tgts.filter
            (fun tgt => (row tgt).any (fun a => decide (a.1 ∈ srcs)))).map
              idx_to_node
    ∧ (∀ tgt a, firstSourceNeighbor (row tgt) srcs = some a →
        a.1 ∈ srcs ∧ ∃ l₁ l₂, row tgt = l₁ ++ a :: l₂ ∧ ∀ b ∈ l₁, b.1 ∉ srcs)
    ∧ (∀ v, inDegree (record_transmissions t srcs tgts row day idx_to_node) v ≤ 1) :=
  ⟨record_transmissions_fields srcs tgts row day idx_to_node t,
   newEvents_targets srcs tgts row day idx_to_node,
   fun tgt a h => firstSourceNeighbor_spec (row tgt) srcs a h,
   fun v => inDegree_le_one _ v
     (record_targets_nodup t srcs tgts row day idx_to_node hinj htn hfresh htold)⟩

/-- Witness for C4: one recorded transmission `0 → 1` on a concrete
two-node row. -/
theorem record_transmissions_spec_witness :
    ([1] : List ℕ).Nodup
    ∧ (∀ x ∈ ([1] : List ℕ), ((x : ℕ) : ℤ) ∉ (empty).targets)
    ∧ inDegree (record_transmissions empty [0] [1]
        (fun _ => [(0, (1 : ℚ))]) "Lunes" (fun n => (n : ℤ))) 1 ≤ 1 := by
  refine ⟨by decide, by decide, ?_⟩
  exact (record_transmissions_spec empty [0] [1] (fun _ => [(0, (1 : ℚ))])
    "Lunes" (fun n => (n : ℤ)) (fun a b h => by simpa using h)
    (by decide) (by decide) (by decide)).2.2.2 1

end VectorizedPropagationTree

namespace GraphAnalysis

theorem dsuUnion_ker (f : ℤ → ℤ) (a b x y : ℤ) :
    dsuUnion f a b x = dsuUnion f a b y
      ↔ f x = f y ∨ (f x = f a ∧ f y = f b) ∨ (f x = f b ∧ f y = f a) := by
  unfold dsuUnion
  by_cases hx : f x = f a <;> by_cases hy : f y = f a
  · simp [hx, hy]
  · simp only [if_pos hx, if_neg hy]
    constructor
    · intro h
      exact Or.inr (Or.inl ⟨hx, h.symm⟩)
    · rintro (h | ⟨h1, h2⟩ | ⟨h1, h2⟩)
      · exact absurd (h.symm.trans hx) hy
      · exact h2.symm
      · exact absurd h2 hy
  · simp only [if_neg hx, if_pos hy]
    constructor
    · intro h
      exact Or.inr (Or.inr ⟨h, hy⟩)
    · rintro (h | ⟨h1, h2⟩ | ⟨h1, h2⟩)
      · exact absurd (h.trans hy) hx
      · exact absurd h1 hx
      · exact h1
  · simp only [if_neg hx, if_neg hy]
    constructor
    · exact fun h => Or.inl h
    · rintro (h | ⟨h1, h2⟩ | ⟨h1, h2⟩)
      · exact h
      · exact absurd h1 hx
      · exact absurd h2 hy

theorem eqvGen_bind {r s : ℤ → ℤ → Prop}
    (h : ∀ a b, r a b → Relation.EqvGen s a b) (x y : ℤ)
    (hxy : Relation.EqvGen r x y) : Relation.EqvGen s x y := by
  induction hxy with
  | rel a b hab => exact h a b hab
  | refl a => exact Relation.EqvGen.refl a
  | symm a b hab ih => exact Relation.EqvGen.symm a b ih
  | trans a b c hab hbc ih1 ih2 => exact Relation.EqvGen.trans a b c ih1 ih2

theorem dsuFold_cons (e : ℤ × ℤ × ℚ) (rest : List (ℤ × ℤ × ℚ))
    (f : ℤ → ℤ) : dsuFold (e :: rest) f = dsuFold rest (dsuUnion f e.1 e.2.1) :=
  rfl

theorem dsuFold_ker (es : List (ℤ × ℤ × ℚ)) (f : ℤ → ℤ) (x y : ℤ) :
    dsuFold es f x = dsuFold es f y
      ↔ Relation.EqvGen (fun a b => f a = f b ∨ edgeRel es a b) x y := by
  induction es generalizing f x y with
  | nil =>
    unfold dsuFold
    simp only [List.foldl_nil]
    constructor
    · intro h
      exact Relation.EqvGen.rel x y (Or.inl h)
    · intro h
      induction h with
      | rel a b hab =>
        rcases hab with hab | ⟨w, hw | hw⟩
        · exact hab
        · cases hw
        · cases hw
      | refl a => rfl
      | symm a b _ ih => exact ih.symm
      | trans a b c _ _ ih1 ih2 => exact ih1.trans ih2
  | cons e rest ih =>
    rw [dsuFold_cons, ih]
    constructor
    · refine eqvGen_bind (fun a b hab => ?_) x y
      rcases hab with hab | hab
      · rw [dsuUnion_ker] at hab
        rcases hab with h1 | ⟨h1, h2⟩ | ⟨h1, h2⟩
        · exact Relation.EqvGen.rel a b (Or.inl h1)
        · refine Relation.EqvGen.trans a e.1 b
            (Relation.EqvGen.rel _ _ (Or.inl h1))
            (Relation.EqvGen.trans e.1 e.2.1 b
              (Relation.EqvGen.rel _ _
                (Or.inr ⟨e.2.2, Or.inl (by simp)⟩))
              (Relation.EqvGen.symm _ _
                (Relation.EqvGen.rel b e.2.1 (Or.inl h2))))
        · refine Relation.EqvGen.trans a e.2.1 b
            (Relation.EqvGen.rel _ _ (Or.inl h1))
            (Relation.EqvGen.trans e.2.1 e.1 b
              (Relation.EqvGen.symm _ _
                (Relation.EqvGen.rel e.1 e.2.1
                  (Or.inr ⟨e.2.2, Or.inl (by simp)⟩)))
              (Relation.EqvGen.symm _ _
                (Relation.EqvGen.rel b e.1 (Or.inl h2))))
      · rcases hab with ⟨w, hw | hw⟩
        · exact Relation.EqvGen.rel a b
            (Or.inr ⟨w, Or.inl (List.mem_cons_of_mem e hw)⟩)
        · exact Relation.EqvGen.rel a b
            (Or.inr ⟨w, Or.inr (List.mem_cons_of_mem e hw)⟩)
    · refine eqvGen_bind (fun a b hab => ?_) x y
      rcases hab with hab | ⟨w, hw | hw⟩
      · exact Relation.EqvGen.rel a b (Or.inl (by unfold dsuUnion; rw [hab]))
      · rcases List.mem_cons.1 hw with rfl | hw
        · exact Relation.EqvGen.rel a b (Or.inl (by unfold dsuUnion; simp))
        · exact Relation.EqvGen.rel a b (Or.inr ⟨w, Or.inl hw⟩)
      · rcases List.mem_cons.1 hw with heq | hw
        · exact Relation.EqvGen.rel a b
            (Or.inl (by rw [← heq]; unfold dsuUnion; simp))
        · exact Relation.EqvGen.rel a b (Or.inr ⟨w, Or.inr hw⟩)

theorem components_ker (es : List (ℤ × ℤ × ℚ)) (x y : ℤ) :
    components es x = components es y
      ↔ Relation.EqvGen (edgeRel es) x y := by
  unfold components
  rw [dsuFold_ker]
  constructor
  · refine eqvGen_bind (fun a b hab => ?_) x y
    rcases hab with hab | hab
    · exact (show a = b from hab) ▸ Relation.EqvGen.refl a
    · exact Relation.EqvGen.rel a b hab
  · exact eqvGen_bind (fun a b hab => Relation.EqvGen.rel a b (Or.inr hab)) x y

theorem components_eq_of_edge (es : List (ℤ × ℤ × ℚ)) (e : ℤ × ℤ × ℚ)
    (he : e ∈ es) : components es e.1 = components es e.2.1 := by
  obtain ⟨a, b, w⟩ := e
  exact (components_ker es a b).2
    (Relation.EqvGen.rel a b ⟨w, Or.inl (by simpa using he)⟩)

end GraphAnalysis

namespace GraphAnalysis

theorem classCount_congr (V : List ℤ) (f g : ℤ → ℤ)
    (h : ∀ x ∈ V, ∀ y ∈ V, (f x = f y ↔ g x = g y)) :
    classCount V f = classCount V g := by
  induction V with
  | nil => rfl
  | cons a rest ih =>
    unfold classCount
    rw [List.map_cons, List.map_cons]
    by_cases hf : f a ∈ rest.map f
    · have hg : g a ∈ rest.map g := by
        obtain ⟨y, hy, hfy⟩ := List.mem_map.1 hf
        exact List.mem_map.2
          ⟨y, hy, (h y (List.mem_cons_of_mem a hy) a (List.mem_cons_self a rest)).1 hfy⟩
      rw [List.dedup_cons_of_mem hf, List.dedup_cons_of_mem hg]
      exact ih (fun x hx y hy =>
        h x (List.mem_cons_of_mem a hx) y (List.mem_cons_of_mem a hy))
    · have hg : g a ∉ rest.map g := by
        intro hga
        obtain ⟨y, hy, hgy⟩ := List.mem_map.1 hga
        exact hf (List.mem_map.2
          ⟨y, hy, (h y (List.mem_cons_of_mem a hy) a (List.mem_cons_self a rest)).2 hgy⟩)
      rw [List.dedup_cons_of_not_mem hf, List.dedup_cons_of_not_mem hg]
      simp only [List.length_cons]
      exact congrArg Nat.succ (ih (fun x hx y hy =>
        h x (List.mem_cons_of_mem a hx) y (List.mem_cons_of_mem a hy)))

theorem edgeRel_perm {es es' : List (ℤ × ℤ × ℚ)} (hp : es.Perm es')
    (a b : ℤ) : edgeRel es a b ↔ edgeRel es' a b := by
  unfold edgeRel
  constructor <;> rintro ⟨w, hw | hw⟩
  · exact ⟨w, Or.inl (hp.mem_iff.1 hw)⟩
  · exact ⟨w, Or.inr (hp.mem_iff.1 hw)⟩
  · exact ⟨w, Or.inl (hp.mem_iff.2 hw)⟩
  · exact ⟨w, Or.inr (hp.mem_iff.2 hw)⟩

theorem components_perm_ker {es es' : List (ℤ × ℤ × ℚ)} (hp : es.Perm es')
    (x y : ℤ) : components es' x = components es' y
      ↔ components es x = components es y := by
  rw [components_ker, components_ker]
  constructor <;> refine eqvGen_bind (fun a b hab => Relation.EqvGen.rel a b ?_) x y
  · exact (edgeRel_perm hp a b).2 hab
  · exact (edgeRel_perm hp a b).1 hab

theorem map_toFinset (W : List ℤ) (g : ℤ → ℤ) :
    (W.map g).toFinset = W.toFinset.image g := by
  induction W with
  | nil => simp
  | cons c t ih => simp [ih]

theorem classCount_eq_card_image (W : List ℤ) (g : ℤ → ℤ) :
    classCount W g = (W.toFinset.image g).card := by
  unfold classCount
  rw [← List.card_toFinset, map_toFinset]

theorem image_dsuUnion (W : List ℤ) (f : ℤ → ℤ) (a b : ℤ)
    (ha : a ∈ W) (hb : b ∈ W) (hne : f a ≠ f b) :
    W.toFinset.image (dsuUnion f a b) = (W.toFinset.image f).erase (f a) := by
  ext v
  simp only [Finset.mem_image, Finset.mem_erase, List.mem_toFinset]
  constructor
  · rintro ⟨u, hu, rfl⟩
    unfold dsuUnion
    by_cases h : f u = f a
    · rw [if_pos h]
      exact ⟨Ne.symm hne, b, hb, rfl⟩
    · rw [if_neg h]
      exact ⟨h, u, hu, rfl⟩
  · rintro ⟨hv, u, hu, rfl⟩
    refine ⟨u, hu, ?_⟩
    unfold dsuUnion
    rw [if_neg hv]

theorem classCount_dsuUnion (W : List ℤ) (f : ℤ → ℤ) (a b : ℤ)
    (ha : a ∈ W) (hb : b ∈ W) (hne : f a ≠ f b) :
    classCount W f = classCount W (dsuUnion f a b) + 1 := by
  rw [classCount_eq_card_image, classCount_eq_card_image,
    image_dsuUnion W f a b ha hb hne]
  have hmem : f a ∈ W.toFinset.image f :=
    Finset.mem_image.2 ⟨a, List.mem_toFinset.2 ha, rfl⟩
  rw [Finset.card_erase_of_mem hmem]
  have hpos : 0 < (W.toFinset.image f).card := Finset.card_pos.2 ⟨f a, hmem⟩
  omega

theorem kruskal_foldl_fst (es : List (ℤ × ℤ × ℚ)) (f : ℤ → ℤ)
    (acc : List (ℤ × ℤ × ℚ)) :
    (es.foldl kruskalStep (f, acc)).1 = dsuFold es f := by
  induction es generalizing f acc with
  | nil => rfl
  | cons e rest ih =>
    rw [List.foldl_cons, dsuFold_cons]
    by_cases h : f e.1 = f e.2.1
    · have hstep : kruskalStep (f, acc) e = (f, acc) := by
        unfold kruskalStep
        rw [if_pos h]
      have huf : dsuUnion f e.1 e.2.1 = f := by
        funext x
        unfold dsuUnion
        by_cases hx : f x = f e.1
        · rw [if_pos hx]
          exact h.symm.trans hx.symm
        · rw [if_neg hx]
      rw [hstep, ih, huf]
    · have hstep : kruskalStep (f, acc) e = (dsuUnion f e.1 e.2.1, acc ++ [e]) := by
        unfold kruskalStep
        rw [if_neg h]
      rw [hstep]
      exact ih _ _

theorem kruskal_foldl_count (es : List (ℤ × ℤ × ℚ)) (W : List ℤ)
    (hE : ∀ e ∈ es, e.1 ∈ W ∧ e.2.1 ∈ W) (f : ℤ → ℤ)
    (acc : List (ℤ × ℤ × ℚ)) :
    (es.foldl kruskalStep (f, acc)).2.length + classCount W (dsuFold es f)
      = acc.length + classCount W f := by
  induction es generalizing f acc with
  | nil => rfl
  | cons e rest ih =>
    rw [List.foldl_cons, dsuFold_cons]
    by_cases h : f e.1 = f e.2.1
    · have hstep : kruskalStep (f, acc) e = (f, acc) := by
        unfold kruskalStep
        rw [if_pos h]
      rw [hstep]
      have huf : dsuUnion f e.1 e.2.1 = f := by
        funext x
        unfold dsuUnion
        by_cases hx : f x = f e.1
        · rw [if_pos hx]
          exact h.symm.trans hx.symm
        · rw [if_neg hx]
      rw [huf]
      exact ih (fun e' he' => hE e' (List.mem_cons_of_mem e he')) f acc
    · have hstep : kruskalStep (f, acc) e = (dsuUnion f e.1 e.2.1, acc ++ [e]) := by
        unfold kruskalStep
        rw [if_neg h]
      rw [hstep]
      have hrec := ih (fun e' he' => hE e' (List.mem_cons_of_mem e he'))
        (dsuUnion f e.1 e.2.1) (acc ++ [e])
      rw [hrec, List.length_append, List.length_singleton]
      have hc := classCount_dsuUnion W f e.1 e.2.1
        (hE e (List.mem_cons_self e rest)).1
        (hE e (List.mem_cons_self e rest)).2 h
      omega

theorem kruskal_length (es : List (ℤ × ℤ × ℚ)) (W : List ℤ) (hW : W.Nodup)
    (hE : ∀ e ∈ es, e.1 ∈ W ∧ e.2.1 ∈ W) :
    (kruskal es).length + classCount W (dsuFold es id) = W.length := by
  unfold kruskal
  have h := kruskal_foldl_count es W hE id []
  simpa [classCount, List.map_id, hW.dedup] using h

theorem kruskal_foldl_sub (es : List (ℤ × ℤ × ℚ)) (f : ℤ → ℤ)
    (acc : List (ℤ × ℤ × ℚ)) :
    ∀ e' ∈ (es.foldl kruskalStep (f, acc)).2, e' ∈ acc ∨ e' ∈ es := by
  induction es generalizing f acc with
  | nil => exact fun e' he' => Or.inl he'
  | cons e rest ih =>
    intro e' he'
    rw [List.foldl_cons] at he'
    by_cases h : f e.1 = f e.2.1
    · rw [show kruskalStep (f, acc) e = (f, acc) by unfold kruskalStep; rw [if_pos h]] at he'
      rcases ih f acc e' he' with h1 | h1
      · exact Or.inl h1
      · exact Or.inr (List.mem_cons_of_mem e h1)
    · rw [show kruskalStep (f, acc) e = (dsuUnion f e.1 e.2.1, acc ++ [e])
          by unfold kruskalStep; rw [if_neg h]] at he'
      rcases ih (dsuUnion f e.1 e.2.1) (acc ++ [e]) e' he' with h1 | h1
      · rcases List.mem_append.1 h1 with h2 | h2
        · exact Or.inl h2
        · exact Or.inr (List.mem_cons.2 (Or.inl (List.mem_singleton.1 h2)))
      · exact Or.inr (List.mem_cons_of_mem e h1)

theorem kruskal_sub (es : List (ℤ × ℤ × ℚ)) :
    ∀ e' ∈ kruskal es, e' ∈ es := by
  intro e' he'
  rcases kruskal_foldl_sub es id [] e' he' with h | h
  · cases h
  · exact h

theorem classCount_eq_one_of_all_eq (W : List ℤ) (f : ℤ → ℤ) :
    W ≠ [] → (∀ x ∈ W, ∀ y ∈ W, f x = f y) → classCount W f = 1 := by
  induction W with
  | nil => intro hne _; cases hne rfl
  | cons a rest ih =>
    intro _ h
    unfold classCount
    rw [List.map_cons]
    by_cases hr : rest = []
    · subst hr
      rfl
    · have hmem : f a ∈ rest.map f := by
        obtain ⟨y, hy⟩ := List.exists_mem_of_ne_nil rest hr
        exact List.mem_map.2
          ⟨y, hy, h y (List.mem_cons_of_mem a hy) a (List.mem_cons_self a rest)⟩
      rw [List.dedup_cons_of_mem hmem]
      exact ih hr (fun x hx y hy =>
        h x (List.mem_cons_of_mem a hx) y (List.mem_cons_of_mem a hy))

theorem all_eq_of_classCount_eq_one (W : List ℤ) (f : ℤ → ℤ)
    (h : classCount W f = 1) : ∀ x ∈ W, ∀ y ∈ W, f x = f y := by
  intro x hx y hy
  unfold classCount at h
  obtain ⟨v, hv⟩ := List.length_eq_one.1 h
  have h1 : f x ∈ (W.map f).dedup :=
    List.mem_dedup.2 (List.mem_map.2 ⟨x, hx, rfl⟩)
  have h2 : f y ∈ (W.map f).dedup :=
    List.mem_dedup.2 (List.mem_map.2 ⟨y, hy, rfl⟩)
  rw [hv, List.mem_singleton] at h1 h2
  rw [h1, h2]

end GraphAnalysis

namespace GraphAnalysis

theorem sum_filter_dedup_map (V : List ℤ) (c : ℤ → ℤ) :
    (((V.map c).dedup).map
      (fun r => (V.filter (fun x => decide (c x = r))).length)).sum
      = V.length := by
  have h1 := List.sum_map_count_dedup_eq_length (V.map c)
  rw [List.length_map] at h1
  rw [← h1]
  refine congrArg List.sum (List.map_congr_left (fun r _ => ?_))
  rw [← List.countP_eq_length_filter, List.count, List.countP_map]
  rfl

theorem sum_compMembers_length (V : List ℤ) (es : List (ℤ × ℤ × ℚ)) :
    ((compReps V es).map (fun r => (compMembers V es r).length)).sum
      = V.length :=
  sum_filter_dedup_map V (components es)

theorem mem_compReps_iff (V : List ℤ) (es : List (ℤ × ℤ × ℚ)) (r : ℤ) :
    r ∈ compReps V es ↔ ∃ x ∈ V, components es x = r := by
  unfold compReps
  rw [List.mem_dedup, List.mem_map]

theorem mem_compMembers (V : List ℤ) (es : List (ℤ × ℤ × ℚ)) (r x : ℤ) :
    x ∈ compMembers V es r ↔ x ∈ V ∧ components es x = r := by
  unfold compMembers
  rw [List.mem_filter]
  simp

theorem compMembers_ne_nil (V : List ℤ) (es : List (ℤ × ℤ × ℚ)) (r : ℤ)
    (hr : r ∈ compReps V es) : compMembers V es r ≠ [] := by
  obtain ⟨x, hx, hcx⟩ := (mem_compReps_iff V es r).1 hr
  intro hc
  have : x ∈ compMembers V es r := (mem_compMembers V es r x).2 ⟨hx, hcx⟩
  rw [hc] at this
  cases this

theorem eqvGen_restrict (es : List (ℤ × ℤ × ℚ)) (V : List ℤ) (r : ℤ)
    (hE : ∀ e ∈ es, e.1 ∈ V ∧ e.2.1 ∈ V) (x y : ℤ)
    (h : Relation.EqvGen (edgeRel es) x y) :
    components es x = r →
    Relation.EqvGen (edgeRel (es.filter (fun e =>
      decide (e.1 ∈ compMembers V es r)
        && decide (e.2.1 ∈ compMembers V es r)))) x y := by
  induction h with
  | rel a b hab =>
    intro ha
    have hb : components es b = r := by
      rw [← (components_ker es a b).2 (Relation.EqvGen.rel a b hab)]
      exact ha
    rcases hab with ⟨w, hw | hw⟩
    · have hav : a ∈ V := (hE (a, b, w) hw).1
      have hbv : b ∈ V := (hE (a, b, w) hw).2
      refine Relation.EqvGen.rel a b ⟨w, Or.inl ?_⟩
      rw [List.mem_filter]
      refine ⟨hw, ?_⟩
      simp only [Bool.and_eq_true, decide_eq_true_eq]
      exact ⟨(mem_compMembers V es r a).2 ⟨hav, ha⟩,
        (mem_compMembers V es r b).2 ⟨hbv, hb⟩⟩
    · have hbv : b ∈ V := (hE (b, a, w) hw).1
      have hav : a ∈ V := (hE (b, a, w) hw).2
      refine Relation.EqvGen.rel a b ⟨w, Or.inr ?_⟩
      rw [List.mem_filter]
      refine ⟨hw, ?_⟩
      simp only [Bool.and_eq_true, decide_eq_true_eq]
      exact ⟨(mem_compMembers V es r b).2 ⟨hbv, hb⟩,
        (mem_compMembers V es r a).2 ⟨hav, ha⟩⟩
  | refl a => exact fun _ => Relation.EqvGen.refl a
  | symm a b hab ih =>
    intro hb
    have ha : components es a = r := by
      rw [(components_ker es a b).2 hab]
      exact hb
    exact Relation.EqvGen.symm a b (ih ha)
  | trans a b c hab hbc ih1 ih2 =>
    intro ha
    have hb : components es b = r := by
      rw [← (components_ker es a b).2 hab]
      exact ha
    exact Relation.EqvGen.trans a b c (ih1 ha) (ih2 hb)

theorem classCount_filtered_one (V : List ℤ) (es : List (ℤ × ℤ × ℚ))
    (r : ℤ) (hE : ∀ e ∈ es, e.1 ∈ V ∧ e.2.1 ∈ V)
    (hne : compMembers V es r ≠ []) (es' : List (ℤ × ℤ × ℚ))
    (hp : es'.Perm (es.filter (fun e =>
      decide (e.1 ∈ compMembers V es r)
        && decide (e.2.1 ∈ compMembers V es r)))) :
    classCount (compMembers V es r) (dsuFold es' id) = 1 := by
  refine classCount_eq_one_of_all_eq _ _ hne (fun x hx y hy => ?_)
  have hx' := (mem_compMembers V es r x).1 hx
  have hy' := (mem_compMembers V es r y).1 hy
  have hxy : Relation.EqvGen (edgeRel es) x y :=
    (components_ker es x y).1 (hx'.2.trans hy'.2.symm)
  have hres := eqvGen_restrict es V r hE x y hxy hx'.2
  have hcomp : components es' x = components es' y := by
    rw [components_ker]
    exact eqvGen_bind
      (fun a b hab => Relation.EqvGen.rel a b ((edgeRel_perm hp a b).2 hab))
      x y hres
  exact hcomp

theorem sum_map_add_one (l : List ℤ) (f : ℤ → ℕ) :
    (l.map (fun r => f r + 1)).sum = (l.map f).sum + l.length := by
  induction l with
  | nil => rfl
  | cons a t ih =>
    simp only [List.map_cons, List.sum_cons, List.length_cons, ih]
    omega

end GraphAnalysis

namespace MSTAnalyzer

open GraphAnalysis

theorem compEdges_def (V : List ℤ) (es : List (ℤ × ℤ × ℚ)) (r : ℤ) :
    compEdges V es r = es.filter (fun e =>
      decide (e.1 ∈ compMembers V es r)
        && decide (e.2.1 ∈ compMembers V es r)) := rfl

theorem comp_kruskal_length (mode : String) (V : List ℤ)
    (es : List (ℤ × ℤ × ℚ)) (hV : V.Nodup)
    (hE : ∀ e ∈ es, e.1 ∈ V ∧ e.2.1 ∈ V) (r : ℤ)
    (hr : r ∈ compReps V es) :
    (kruskal (sortEdges mode (compEdges V es r))).length + 1
      = (compMembers V es r).length := by
  have hperm : (sortEdges mode (compEdges V es r)).Perm (compEdges V es r) :=
    List.mergeSort_perm _ _
  have hEsub : ∀ e ∈ sortEdges mode (compEdges V es r),
      e.1 ∈ compMembers V es r ∧ e.2.1 ∈ compMembers V es r := by
    intro e he
    have hmem := hperm.mem_iff.1 he
    rw [compEdges_def, List.mem_filter] at hmem
    have := hmem.2
    simp only [Bool.and_eq_true, decide_eq_true_eq] at this
    exact this
  have hlen := kruskal_length (sortEdges mode (compEdges V es r))
    (compMembers V es r) (hV.filter _) hEsub
  have hone := classCount_filtered_one V es r hE
    (compMembers_ne_nil V es r hr) (sortEdges mode (compEdges V es r))
    (by rw [← compEdges_def]; exact hperm)
  rw [hone] at hlen
  exact hlen

theorem disconnected_edges_length (mode : String) (V : List ℤ)
    (es : List (ℤ × ℤ × ℚ)) (hV : V.Nodup)
    (hE : ∀ e ∈ es, e.1 ∈ V ∧ e.2.1 ∈ V) :
    ((compReps V es).flatMap (fun r =>
      if 1 < (compMembers V es r).length then
        kruskal (sortEdges mode (compEdges V es r))
      else [])).length + numComponents V es = V.length := by
  have hsum : ((compReps V es).map (fun r =>
      (if 1 < (compMembers V es r).length then
        kruskal (sortEdges mode (compEdges V es r))
      else []).length)).sum + (compReps V es).length
      = ((compReps V es).map (fun r => (compMembers V es r).length)).sum := by
    rw [← sum_map_add_one]
    refine congrArg List.sum (List.map_congr_left (fun r hr => ?_))
    by_cases h : 1 < (compMembers V es r).length
    · rw [if_pos h]
      exact comp_kruskal_length mode V es hV hE r hr
    · rw [if_neg h]
      have h1 : (compMembers V es r).length ≠ 0 := fun hc =>
        compMembers_ne_nil V es r hr (List.length_eq_zero.1 hc)
      simp only [List.length_nil]
      omega
  have hflat : ((compReps V es).flatMap (fun r =>
      if 1 < (compMembers V es r).length then
        kruskal (sortEdges mode (compEdges V es r))
      else [])).length
      = ((compReps V es).map (fun r =>
        (if 1 < (compMembers V es r).length then
          kruskal (sortEdges mode (compEdges V es r))
        else []).length)).sum := by
    rw [List.length_flatMap]
    rfl
  rw [hflat]
  have hreps : numComponents V es = (compReps V es).length := rfl
  rw [hreps, hsum, sum_compMembers_length]

theorem connected_kruskal_length (mode : String) (V : List ℤ)
    (es : List (ℤ × ℤ × ℚ)) (hV : V.Nodup)
    (hE : ∀ e ∈ es, e.1 ∈ V ∧ e.2.1 ∈ V)
    (hc : numComponents V es = 1) :
    (kruskal (sortEdges mode es)).length + 1 = V.length := by
  have hperm : (sortEdges mode es).Perm es := List.mergeSort_perm _ _
  have hEsub : ∀ e ∈ sortEdges mode es, e.1 ∈ V ∧ e.2.1 ∈ V :=
    fun e he => hE e (hperm.mem_iff.1 he)
  have hlen := kruskal_length (sortEdges mode es) V hV hEsub
  have h1 : classCount V (dsuFold (sortEdges mode es) id) = 1 := by
    rw [show dsuFold (sortEdges mode es) id = components (sortEdges mode es)
      from rfl]
    rw [classCount_congr V (components (sortEdges mode es)) (components es)
      (fun x _ y _ => (components_perm_ker hperm x y).symm)]
    exact hc
  rw [h1] at hlen
  exact hlen

theorem analyze_edges_sub (mode : String) (V : List ℤ)
    (es : List (ℤ × ℤ × ℚ)) :
    ∀ e ∈ (analyze mode V es).mstEdges, e ∈ es := by
  intro e he
  unfold analyze at he
  by_cases h0 : V.length = 0
  · rw [if_pos h0] at he
    cases he
  · rw [if_neg h0] at he
    by_cases hc : numComponents V es = 1
    · rw [if_pos hc] at he
      exact (List.mergeSort_perm es _).mem_iff.1 (kruskal_sub _ e he)
    · rw [if_neg hc] at he
      simp only [List.mem_flatMap] at he
      obtain ⟨r, _, hmem⟩ := he
      by_cases h1 : 1 < (compMembers V es r).length
      · rw [if_pos h1] at hmem
        have h2 := (List.mergeSort_perm (compEdges V es r) _).mem_iff.1
          (kruskal_sub _ e hmem)
        rw [compEdges_def] at h2
        exact List.mem_of_mem_filter h2
      · rw [if_neg h1] at hmem
        cases hmem

theorem nodup_all_eq (l : List ℤ) (x : ℤ) (hn : l.Nodup)
    (hall : ∀ a ∈ l, a = x) (hx : x ∈ l) : l = [x] := by
  cases l with
  | nil => cases hx
  | cons a t =>
    have ha : a = x := hall a (List.mem_cons_self a t)
    subst ha
    cases t with
    | nil => rfl
    | cons b t2 =>
      have hb : b = a := hall b (List.mem_cons_of_mem a (List.mem_cons_self b t2))
      rw [List.nodup_cons] at hn
      exact absurd (hb ▸ List.mem_cons_self b t2) hn.1

/-- **C7.** `MSTAnalyzer.analyze` on a graph with `N` (distinct) nodes
and `C` connected components returns a spanning structure with exactly
`N - C` edges (stated additively: edges + C = N, and edges = N - 1
when connected); `num_componentes` is the component count; the
component labelling used for `C` identifies two nodes exactly when
they are joined by a path; and every singleton component's node
appears in the result as an isolated node (present, incident to no
tree edge).  Hypotheses: node list duplicate-free, edge endpoints
among the nodes, no self-loops (contact graphs satisfy all three). -/
theorem analyze_spec (mode : String) (V : List ℤ) (es : List (ℤ × ℤ × ℚ))
    (hV : V.Nodup) (hE : ∀ e ∈ es, e.1 ∈ V ∧ e.2.1 ∈ V)
    (hloop : ∀ e ∈ es, e.1 ≠ e.2.1) :
    ((analyze mode V es).mstEdges.length + numComponents V es = V.length)
    ∧ (numComponents V es = 1 →
        (analyze mode V es).mstEdges.length = V.length - 1)
    ∧ ((analyze mode V es).num_componentes = numComponents V es)
    ∧ (∀ x y : ℤ, components es x = components es y
        ↔ Relation.EqvGen (edgeRel es) x y)
    ∧ (∀ x ∈ V, (∀ y ∈ V, components es y = components es x → y = x) →
        x ∈ (analyze mode V es).mstNodes
        ∧ ∀ e ∈ (analyze mode V es).mstEdges, e.1 ≠ x ∧ e.2.1 ≠ x) := by
  have hmain : (analyze mode V es).mstEdges.length + numComponents V es
      = V.length
      ∧ (analyze mode V es).num_componentes = numComponents V es := by
    unfold analyze
    by_cases h0 : V.length = 0
    · rw [if_pos h0]
      have hVnil : V = [] := List.length_eq_zero.1 h0
      subst hVnil
      exact ⟨rfl, rfl⟩
    · rw [if_neg h0]
      by_cases hc : numComponents V es = 1
      · rw [if_pos hc]
        constructor
        · show (kruskal (sortEdges mode es)).length + numComponents V es
            = V.length
          rw [hc]
          exact connected_kruskal_length mode V es hV hE hc
        · exact hc.symm
      · rw [if_neg hc]
        exact ⟨disconnected_edges_length mode V es hV hE, rfl⟩
  have hedge : ∀ x ∈ V, (∀ y ∈ V, components es y = components es x → y = x) →
      ∀ e ∈ (analyze mode V es).mstEdges, e.1 ≠ x ∧ e.2.1 ≠ x := by
    intro x hx hsing e he
    have hees := analyze_edges_sub mode V es e he
    constructor
    · intro h1
      have hc2 : components es e.2.1 = components es x := by
        rw [← h1]
        exact (components_eq_of_edge es e hees).symm
      have hx2 := hsing e.2.1 (hE e hees).2 hc2
      exact hloop e hees (h1.trans hx2.symm)
    · intro h2
      have hc1 : components es e.1 = components es x := by
        rw [← h2]
        exact components_eq_of_edge es e hees
      have hx1 := hsing e.1 (hE e hees).1 hc1
      exact hloop e hees (hx1.trans h2.symm)
  have hnode : ∀ x ∈ V, (∀ y ∈ V, components es y = components es x → y = x) →
      x ∈ (analyze mode V es).mstNodes := by
    intro x hx hsing
    unfold analyze
    have h0 : ¬V.length = 0 := by
      intro hn
      rw [List.length_eq_zero.1 hn] at hx
      cases hx
    rw [if_neg h0]
    by_cases hc : numComponents V es = 1
    · rw [if_pos hc]
      exact hx
    · rw [if_neg hc]
      simp only [List.mem_flatMap]
      refine ⟨components es x, (mem_compReps_iff V es _).2 ⟨x, hx, rfl⟩, ?_⟩
      have hcm : compMembers V es (components es x) = [x] := by
        refine nodup_all_eq _ x (hV.filter _) ?_ ?_
        · intro a ha
          have hma := (mem_compMembers V es _ a).1 ha
          exact hsing a hma.1 hma.2
        · exact (mem_compMembers V es _ x).2 ⟨hx, rfl⟩
      rw [hcm]
      simp
  refine ⟨hmain.1, ?_, hmain.2, fun x y => components_ker es x y,
    fun x hx hs => ⟨hnode x hx hs, hedge x hx hs⟩⟩
  intro h1
  have h2 := hmain.1
  omega

/-- Witness for C7: four nodes, a path `0-1-2` plus the isolated node
`3`: two components. -/
theorem analyze_spec_witness :
    (([0, 1, 2, 3] : List ℤ).Nodup
      ∧ (∀ e ∈ [((0 : ℤ), (1 : ℤ), (1 : ℚ)), (1, 2, 1)],
          e.1 ∈ ([0, 1, 2, 3] : List ℤ) ∧ e.2.1 ∈ ([0, 1, 2, 3] : List ℤ))
      ∧ (∀ e ∈ [((0 : ℤ), (1 : ℤ), (1 : ℚ)), (1, 2, 1)], e.1 ≠ e.2.1))
    ∧ (analyze "inverse" [0, 1, 2, 3]
        [((0 : ℤ), (1 : ℤ), (1 : ℚ)), (1, 2, 1)]).mstEdges.length
      + numComponents [0, 1, 2, 3] [((0 : ℤ), (1 : ℤ), (1 : ℚ)), (1, 2, 1)]
      = ([0, 1, 2, 3] : List ℤ).length := by
  refine ⟨⟨by decide, by decide, by decide⟩, ?_⟩
  exact (analyze_spec "inverse" [0, 1, 2, 3]
    [((0 : ℤ), (1 : ℤ), (1 : ℚ)), (1, 2, 1)]
    (by decide) (by decide) (by decide)).1

end MSTAnalyzer

namespace WCCAnalyzer

open GraphAnalysis

theorem foldr_max_le_sum (l : List ℕ) : l.foldr max 0 ≤ l.sum := by
  induction l with
  | nil => simp
  | cons a t ih =>
    simp only [List.foldr_cons, List.sum_cons]
    omega

theorem foldr_max_mem (l : List ℕ) (hne : l ≠ []) (h1 : ∀ a ∈ l, 1 ≤ a) :
    l.foldr max 0 ∈ l := by
  induction l with
  | nil => cases hne rfl
  | cons a t ih =>
    by_cases ht : t = []
    · subst ht
      simp only [List.foldr_cons, List.foldr_nil]
      have := h1 a (List.mem_cons_self a [])
      have hmax : max a 0 = a := by omega
      rw [hmax]
      exact List.mem_cons_self a []
    · have hmem := ih ht (fun b hb => h1 b (List.mem_cons_of_mem a hb))
      simp only [List.foldr_cons]
      by_cases hc : t.foldr max 0 ≤ a
      · have : max a (t.foldr max 0) = a := by omega
        rw [this]
        exact List.mem_cons_self a t
      · have : max a (t.foldr max 0) = t.foldr max 0 := by omega
        rw [this]
        exact List.mem_cons_of_mem a hmem

theorem length_one_of_mem_sum (l : List ℕ) (a : ℕ) (ha : a ∈ l)
    (hs : l.sum = a) (h1 : ∀ b ∈ l, 1 ≤ b) : l.length = 1 := by
  cases l with
  | nil => cases ha
  | cons x t =>
    rcases List.mem_cons.1 ha with heq | hat
    · -- a = x : sum = x + t.sum = x ⇒ t.sum = 0 ⇒ t = []
      rw [List.sum_cons, ← heq] at hs
      have ht0 : t.sum = 0 := by omega
      cases t with
      | nil => rfl
      | cons b t2 =>
        have hb := h1 b (List.mem_cons_of_mem x (List.mem_cons_self b t2))
        rw [List.sum_cons] at ht0
        omega
    · -- a strictly inside the tail: sum ≥ x + a > a, contradiction
      have hx := h1 x (List.mem_cons_self x t)
      have hta : a ≤ t.sum := List.le_sum_of_mem hat
      rw [List.sum_cons] at hs
      omega

theorem ne_nil_compReps (V : List ℤ) (es : List (ℤ × ℤ × ℚ))
    (hne : V ≠ []) : compReps V es ≠ [] := by
  obtain ⟨x, hx⟩ := List.exists_mem_of_ne_nil V hne
  intro hc
  have hm : components es x ∈ compReps V es :=
    List.mem_dedup.2 (List.mem_map.2 ⟨x, hx, rfl⟩)
  rw [hc] at hm
  cases hm

/-- Counterexample to C8 as stated: on the empty propagation graph the
analyzer reports fragmentation `0`, yet the graph does not have
exactly one connected component spanning all its nodes — it has zero
components. -/
theorem fragmentation_claim_counterexample :
    fragmentation (analyze ([] : List ℤ) ([] : List (ℤ × ℤ × ℚ))) = 0
    ∧ (analyze ([] : List ℤ) ([] : List (ℤ × ℤ × ℚ))).num_componentes ≠ 1 := by
  exact ⟨rfl, by decide⟩

/-- **C8 (amended: for every nonempty input graph).** The
fragmentation index equals `1 - giant/total`, the component sizes sum
to the node count, the index lies in `[0, 1)`, and it equals `0`
exactly when there is one component and it spans all nodes.  (On the
empty graph the code returns `0` with zero components, so the
as-stated iff fails there.) -/
theorem fragmentation_spec (V : List ℤ) (es : List (ℤ × ℤ × ℚ))
    (hne : V ≠ []) :
    fragmentation (analyze V es)
      = 1 - ((analyze V es).componente_gigante : ℚ)
          / (((analyze V es).tamanos.sum : ℕ) : ℚ)
    ∧ (analyze V es).tamanos.sum = V.length
    ∧ 0 ≤ fragmentation (analyze V es)
    ∧ fragmentation (analyze V es) < 1
    ∧ (fragmentation (analyze V es) = 0
        ↔ (analyze V es).num_componentes = 1
          ∧ (analyze V es).componente_gigante = V.length) := by
  have h0 : ¬V.length = 0 := fun hc => hne (List.length_eq_zero.1 hc)
  have hana : analyze V es = ⟨(compReps V es).length,
      ((compReps V es).map (fun r => (compMembers V es r).length)).mergeSort
        (fun a b => decide (b ≤ a)),
      ((compReps V es).map
        (fun r => (compMembers V es r).length)).foldr max 0⟩ := by
    unfold analyze
    rw [if_neg h0]
  have htam : (analyze V es).tamanos.sum
      = ((compReps V es).map (fun r => (compMembers V es r).length)).sum := by
    rw [hana]
    exact (List.mergeSort_perm _ _).sum_eq
  have hsum : (analyze V es).tamanos.sum = V.length := by
    rw [htam, sum_compMembers_length]
  have hnum : (analyze V es).num_componentes = (compReps V es).length := by
    rw [hana]
  have hgig : (analyze V es).componente_gigante
      = ((compReps V es).map
        (fun r => (compMembers V es r).length)).foldr max 0 := by
    rw [hana]
  have hrne := ne_nil_compReps V es hne
  have hszne : (compReps V es).map (fun r => (compMembers V es r).length)
      ≠ [] := fun hc => hrne (List.map_eq_nil_iff.1 hc)
  have hsz1 : ∀ a ∈ (compReps V es).map
      (fun r => (compMembers V es r).length), 1 ≤ a := by
    intro a ha
    obtain ⟨r, hr, rfl⟩ := List.mem_map.1 ha
    exact List.length_pos.2 (compMembers_ne_nil V es r hr)
  have hgmem := foldr_max_mem _ hszne hsz1
  have hg1 : 1 ≤ (analyze V es).componente_gigante := by
    rw [hgig]
    exact hsz1 _ hgmem
  have hgle : (analyze V es).componente_gigante
      ≤ (analyze V es).tamanos.sum := by
    rw [hgig, htam]
    exact foldr_max_le_sum _
  have hnum0 : (analyze V es).num_componentes ≠ 0 := by
    rw [hnum]
    exact (List.length_pos.2 hrne).ne'
  have hsum0 : (analyze V es).tamanos.sum ≠ 0 := by
    rw [hsum]
    exact fun hc => hne (List.length_eq_zero.1 hc)
  have hfrag : fragmentation (analyze V es)
      = 1 - ((analyze V es).componente_gigante : ℚ)
          / (((analyze V es).tamanos.sum : ℕ) : ℚ) := by
    unfold fragmentation
    rw [if_neg hnum0, if_neg hsum0]
  have htQ : (0 : ℚ) < (((analyze V es).tamanos.sum : ℕ) : ℚ) := by
    exact_mod_cast Nat.pos_of_ne_zero hsum0
  have hgQ : (0 : ℚ) < ((analyze V es).componente_gigante : ℚ) := by
    exact_mod_cast Nat.pos_of_ne_zero (by omega)
  have hgtQ : ((analyze V es).componente_gigante : ℚ)
      ≤ (((analyze V es).tamanos.sum : ℕ) : ℚ) := by
    exact_mod_cast hgle
  refine ⟨hfrag, hsum, ?_, ?_, ?_⟩
  · rw [hfrag]
    have hle1 := (div_le_one htQ).2 hgtQ
    linarith
  · rw [hfrag]
    exact sub_lt_self 1 (div_pos hgQ htQ)
  · rw [hfrag]
    constructor
    · intro h
      have h1 : ((analyze V es).componente_gigante : ℚ)
          / (((analyze V es).tamanos.sum : ℕ) : ℚ) = 1 :=
        (sub_eq_zero.1 h).symm
      have h2 := (div_eq_one_iff_eq htQ.ne').1 h1
      have h3 : (analyze V es).componente_gigante
          = (analyze V es).tamanos.sum := by
        exact_mod_cast h2
      have hlen1 : ((compReps V es).map
          (fun r => (compMembers V es r).length)).length = 1 := by
        refine length_one_of_mem_sum _ ((analyze V es).componente_gigante)
          ?_ ?_ hsz1
        · rw [hgig]
          exact hgmem
        · rw [← htam]
          exact h3.symm
      constructor
      · rw [hnum]
        rw [List.length_map] at hlen1
        exact hlen1
      · rw [← hsum]
        exact h3
    · rintro ⟨hn1, _⟩
      have hlen1 : (compReps V es).length = 1 := by
        rw [← hnum]
        exact hn1
      obtain ⟨r, hr⟩ := List.length_eq_one.1 hlen1
      have hgt : (analyze V es).componente_gigante
          = (analyze V es).tamanos.sum := by
        rw [hgig, htam, hr]
        simp
      have hQ : ((analyze V es).componente_gigante : ℚ)
          = (((analyze V es).tamanos.sum : ℕ) : ℚ) := by
        exact_mod_cast hgt
      rw [hQ, div_self htQ.ne']
      ring

/-- Witness for the amended C8 at a concrete three-node graph with one
edge (two components, fragmentation `1/3`). -/
theorem fragmentation_spec_witness :
    ([1, 2, 3] : List ℤ) ≠ []
    ∧ 0 ≤ fragmentation (analyze [1, 2, 3] [((1 : ℤ), (2 : ℤ), (1 : ℚ))]) := by
  refine ⟨by decide, ?_⟩
  exact (fragmentation_spec [1, 2, 3] [((1 : ℤ), (2 : ℤ), (1 : ℚ))]
    (by decide)).2.2.1

end WCCAnalyzer
